import Mathlib

/-!
A verification development for the `serializable` module of the xmldump
repository: a Django-model-graph serializer/deserializer working over an
XML element tree.

The development shallowly embeds the functions of `serializable.py`:

* the scalar codec (`_datetime_to_str`, `_str_to_datetime`, the scalar
  branches of `_field_to_xml` and `_xml_to_field`),
* the graph serializer (`models_to_xml`, `_model_to_xml`, `_field_to_xml`,
  `owned_models`),
* the graph deserializer (`xml_to_models`, `xml_to_model`,
  `_xml_to_attribs`, `_xml_to_field` and its deferred-reference closures),
* the type-tree discovery used for deletion (`all_models_in_tree`,
  `delete_all_models_in_db`).

Modelling conventions, used throughout:

* Django model classes are identified by their fully qualified dotted
  name (`_path_to_class` is the identity on these names); the schema of
  an app is a list of classes, each with its named fields and their
  kinds (scalar, foreign key, or other).
* The record store (the Django database) is a list of `Obj` values; an
  object is identified by its class and primary key, mirroring
  `Model.__eq__`/`__hash__` which compare class and pk.
* Python exceptions are an explicit error type; a fallible function
  returns `Except`.
* All recursive traversals take an explicit fuel argument and return
  a distinguished `fuelOut` error when it runs out, so that every
  definition is structurally recursive and computable; termination
  claims become fuel-adequacy theorems.
* Machine integers do not overflow in the modelled fragment (Python ints
  are unbounded), so `Int`/`Nat` are used directly.
* The `float` and `buffer` scalar kinds of `_field_to_xml`/`_xml_to_field`
  are outside the embedding: their textual forms are IEEE-754 double
  formatting and base64, which this development does not model.  No
  document or store used below mentions them.
-/

namespace Xmldump

/-! ### The datetime codec: `_datetime_to_str` / `_str_to_datetime` -/

/-- A Python `datetime.datetime` value as the codec sees it:
`dt.timetuple()[:6]` (year, month, day, hour, minute, second), the
microsecond, and whether `dt.tzinfo` is set (the only tzinfo the module
ever attaches is UTC). -/
structure PyDatetime where
  year : Nat
  month : Nat
  day : Nat
  hour : Nat
  minute : Nat
  second : Nat
  microsecond : Nat
  utc : Bool
deriving DecidableEq

/-- `_datetime_to_str`: `'datetime(%s%s)' % (','.join(map(str,vals)), ',UTC' if dt.tzinfo else '')`
where `vals` is the six timetuple fields followed by the microsecond. -/
def _datetime_to_str (dt : PyDatetime) : String :=
  "datetime(" ++
    String.intercalate "," ([dt.year, dt.month, dt.day, dt.hour, dt.minute,
        dt.second, dt.microsecond].map toString) ++
    (if dt.utc then ",UTC" else "") ++ ")"

/-- The numeric value of a run of decimal digit characters. -/
def digitsToNat (ds : List Char) : Nat :=
  ds.foldl (fun a c => 10 * a + (c.toNat - 48)) 0

/-- One digit-run of the regex `\d+`: a nonempty run of leading digits
and its value, with the remaining input. -/
def parseDigitGroup (s : List Char) : Option (Nat × List Char) :=
  let ds := s.takeWhile Char.isDigit
  if ds.isEmpty then none
  else some (digitsToNat ds, s.dropWhile Char.isDigit)

/-- The comma-separated digit groups of the regex group
`((\d+,){5,6}\d+)`: collects a number, and while a `,` directly followed
by a digit comes next, continues.  The fuel argument (one unit per group
read) keeps the recursion structural; callers pass the input length. -/
def parseIntList : Nat → List Char → Option (List Nat × List Char)
  | 0, _ => none
  | fuel + 1, s =>
    match parseDigitGroup s with
    | none => none
    | some (n, rest) =>
      match rest with
      | ',' :: c :: rest' =>
        if c.isDigit then
          match parseIntList fuel (c :: rest') with
          | none => none
          | some (ns, rest'') => some (n :: ns, rest'')
        else some ([n], ',' :: c :: rest')
      | _ => some ([n], rest)

/-- `_str_to_datetime`: `re.match('datetime\(((\d+,){5,6}\d+)(,UTC)?\)', dt)`
followed by `datetime.datetime(*map(int, ...), tzinfo=...)`.  `re.match`
anchors at the start only, so trailing characters after `)` are accepted.
A failed match is the `assert m` failure, returned here as `none`; the
constructor's own range validation (month 1..12 etc.) is not modelled, as
no claim depends on it. -/
def _str_to_datetime (s : String) : Option PyDatetime :=
  let cs := s.toList
  if cs.take 9 = "datetime(".toList then
    match parseIntList (cs.length + 1) (cs.drop 9) with
    | none => none
    | some (ns, rest) =>
      if ns.length = 6 ∨ ns.length = 7 then
        let (utc, rest') :=
          match rest with
          | ',' :: 'U' :: 'T' :: 'C' :: r => (true, r)
          | r => (false, r)
        match rest' with
        | ')' :: _ => some (mkDt ns utc)
        | _ => none
      else none
  else none
where
  /-- `datetime.datetime(*ints, tzinfo=tz)`: six or seven positional
  arguments, microsecond defaulting to 0. -/
  mkDt (ns : List Nat) (utc : Bool) : PyDatetime :=
    { year := ns.getD 0 0, month := ns.getD 1 0, day := ns.getD 2 0
      hour := ns.getD 3 0, minute := ns.getD 4 0, second := ns.getD 5 0
      microsecond := ns.getD 6 0, utc := utc }

/-- The naive timestamp of the repository's own codec test. -/
def dtNaive : PyDatetime :=
  ⟨2014, 1, 2, 3, 12, 13, 1456, false⟩

/-- The UTC-flagged equivalent. -/
def dtUtc : PyDatetime :=
  ⟨2014, 1, 2, 3, 12, 13, 1456, true⟩

/-- C6: encode→decode→encode of `datetime(2014,1,2,3,12,13,1456)`, naive
and UTC-flagged, reproduces identical text including the presence or
absence of the trailing `,UTC` marker; microseconds survive exactly. -/
theorem timestamp_codec_exact :
    _datetime_to_str dtNaive = "datetime(2014,1,2,3,12,13,1456)"
    ∧ _str_to_datetime (_datetime_to_str dtNaive) = some dtNaive
    ∧ _datetime_to_str dtUtc = "datetime(2014,1,2,3,12,13,1456,UTC)"
    ∧ _str_to_datetime (_datetime_to_str dtUtc) = some dtUtc
    ∧ (_str_to_datetime (_datetime_to_str dtNaive)).map _datetime_to_str
        = some (_datetime_to_str dtNaive)
    ∧ (_str_to_datetime (_datetime_to_str dtUtc)).map _datetime_to_str
        = some (_datetime_to_str dtUtc) := by
  refine ⟨rfl, ?_, rfl, ?_, ?_, ?_⟩ <;> decide

/-! ### Data model: classes, fields, objects, XML elements -/

/-- A fully qualified class name, `module.ClassName`; `_path_to_class`
is the identity on these and `_get_class_from_class_pathname` is a
schema lookup. -/
abbrev ClassName := String

/-- The kind of a declared model field, as `all_models_in_tree`
classifies them: the recognized scalar field classes (AutoField,
CharField, ..., BooleanField), a ForeignKey with its target class, or
any other field class (which is a fatal error there). -/
inductive FKind where
  | scalar
  | fk (target : ClassName)
  | other
deriving DecidableEq

/-- An app schema: each class with its declared non-pk fields in order.
(The primary key `id` AutoField is implicit on every class, as in
Django.) -/
abbrev Schema := List (ClassName × List (String × FKind))

def classNames (sch : Schema) : List ClassName := sch.map Prod.fst

def fieldsOf (sch : Schema) (c : ClassName) : List (String × FKind) :=
  (sch.lookup c).getD []

/-- A concrete field value.  `vmodel` is a foreign-key column: it holds
the identity of the related instance (`getattr` returns that instance).
`vnone` is Python `None`.  The `float` and `buffer` kinds are outside
the embedding (see the header). -/
inductive Value where
  | vint (n : Int)
  | vstr (s : String)
  | vuni (s : String)
  | vbool (b : Bool)
  | vdate (y m d : Nat)
  | vdatetime (dt : PyDatetime)
  | vmodel (c : ClassName) (pk : Int)
  | vnone
deriving DecidableEq

/-- A persisted record instance.  `fields` holds the non-pk fields under
their stripped names (`menu`, not `menu_id`), in the order the
serializer's `values()[0].keys()` enumeration is fixed to (Python dict
order is unspecified; the embedding fixes declaration order, with `id`
always handled first). -/
structure Obj where
  cls : ClassName
  pk : Int
  fields : List (String × Value)
deriving DecidableEq

/-- The identity Django's `Model.__eq__`/`__hash__` compare: class and
primary key. -/
def Obj.id (o : Obj) : ClassName × Int := (o.cls, o.pk)

/-- The record store (database): all persisted instances.
`cls.objects.all()` enumerates the sublist of a class in store order. -/
abbrev Store := List Obj

def storeIds (store : Store) : List (ClassName × Int) := store.map Obj.id

/-- An `xml.etree.ElementTree.Element` as the module uses it: a tag, the
`type` and `to_type` attributes, text, and child elements. -/
inductive Elem where
  | mk (tag : String) (typ : Option String) (toType : Option String)
       (text : Option String) (children : List Elem)

def Elem.tag : Elem → String | .mk t _ _ _ _ => t
def Elem.typ : Elem → Option String | .mk _ ty _ _ _ => ty
def Elem.toType : Elem → Option String | .mk _ _ tt _ _ => tt
def Elem.text : Elem → Option String | .mk _ _ _ tx _ => tx
def Elem.children : Elem → List Elem | .mk _ _ _ _ cs => cs

/-- `owned_models(cls)` (default path, no per-class override): one
relation per class that has a ForeignKey referencing `cls`, paired with
the name of that foreign-key field (the single core filter the
retrieval closure uses).  `dir()` enumeration order is alphabetical; the
embedding uses schema order, and concrete schemas below are listed
alphabetically. -/
def owned_models (sch : Schema) (cls : ClassName) :
    List (ClassName × String) :=
  sch.filterMap (fun p =>
    (p.2.find? (fun fd => fd.2 == FKind.fk cls)).map (fun fd => (p.1, fd.1)))

/-! ### Tree discovery for deletion: `all_models_in_tree`,
`delete_all_models_in_db` -/

/-- Errors of the tree-discovery functions: the `assert depth` failure,
the `'Field is of unknown type'` exception, and the fuel artifact. -/
inductive TErr where
  | assertError
  | unknownFieldType
  | fuelOut
deriving DecidableEq

/-- The work items of `all_models_in_tree`: the function entry itself,
its loop over the declared fields, and its loop over the owned
classes.  `depth` is the source's depth argument. -/
inductive TJob where
  | tree (cls : ClassName) (depth : Nat)
  | fieldsJ (fs : List (String × FKind)) (depth : Nat)
  | ownedJ (cs : List ClassName) (depth : Nat)

/-- `all_models_in_tree(cls, accumulatingList, depth)` and its two inner
loops, as one fuel-indexed machine.  The accumulating list is threaded
(the source mutates it in place).  No class overrides
`all_models_in_tree` in the embedding. -/
def treeRun (sch : Schema) : Nat → TJob → List ClassName →
    Except TErr (List ClassName)
  | 0, _, _ => .error .fuelOut
  | fuel + 1, .tree cls depth, acc =>
    if depth = 0 then .error .assertError
    else if cls ∈ acc then .ok acc
    else
      match treeRun sch fuel (.fieldsJ (fieldsOf sch cls) depth) (acc ++ [cls]) with
      | .error e => .error e
      | .ok acc1 =>
        treeRun sch fuel (.ownedJ ((owned_models sch cls).map Prod.fst) depth) acc1
  | fuel + 1, .fieldsJ fs depth, acc =>
    match fs with
    | [] => .ok acc
    | (_, k) :: fs' =>
      match k with
      | .scalar => treeRun sch fuel (.fieldsJ fs' depth) acc
      | .fk target =>
        match treeRun sch fuel (.tree target (depth - 1)) acc with
        | .error e => .error e
        | .ok acc1 => treeRun sch fuel (.fieldsJ fs' depth) acc1
      | .other => .error .unknownFieldType
  | fuel + 1, .ownedJ cs depth, acc =>
    match cs with
    | [] => .ok acc
    | c :: cs' =>
      match treeRun sch fuel (.tree c (depth - 1)) acc with
      | .error e => .error e
      | .ok acc1 => treeRun sch fuel (.ownedJ cs' depth) acc1

/-- `all_models_in_tree` with the source's default `depth=20`. -/
def all_models_in_tree (sch : Schema) (fuel : Nat) (cls : ClassName)
    (acc : List ClassName) (depth : Nat := 20) :
    Except TErr (List ClassName) :=
  treeRun sch fuel (.tree cls depth) acc

/-- The type-discovery loop of `delete_all_models_in_db`:
`while i < len(objs) and i < 10`, each round running
`all_models_in_tree(objs[i], new_objs)` on a fresh list and appending
the classes not yet present.  Returns the discovered classes and the
number of rounds performed.  `roundsFuel` is structural fuel; the caller
passes 10, which the `i < 10` guard makes always sufficient. -/
def discoverAux (sch : Schema) (treeFuel : Nat) :
    Nat → Nat → List ClassName → Except TErr (List ClassName × Nat)
  | 0, _, objs => .ok (objs, 0)
  | roundsFuel + 1, i, objs =>
    if i < objs.length ∧ i < 10 then
      match all_models_in_tree sch treeFuel (objs.getD i "") [] with
      | .error e => .error e
      | .ok newObjs =>
        let objs' := objs ++ newObjs.filter (fun c => c ∉ objs)
        match discoverAux sch treeFuel roundsFuel (i + 1) objs' with
        | .error e => .error e
        | .ok (l, n) => .ok (l, n + 1)
    else .ok (objs, 0)

/-- `delete_all_models_in_db(root_models)`: discover the related classes
(at most 10 expansion rounds), then delete every instance of each.
Returns the discovered classes, the number of expansion rounds, and the
store after deletion. -/
def delete_all_models_in_db (sch : Schema) (treeFuel : Nat)
    (roots : List ClassName) (store : Store) :
    Except TErr (List ClassName × Nat × Store) :=
  match discoverAux sch treeFuel 10 0 roots with
  | .error e => .error e
  | .ok (objs, n) => .ok (objs, n, store.filter (fun o => o.cls ∉ objs))

/-! ### Lemmas about tree discovery -/

/-- One-step unfolding of `treeRun` at a `tree` job. -/
theorem treeRun_tree_eq (sch : Schema) (f : Nat) (cls : ClassName)
    (depth : Nat) (acc : List ClassName) :
    treeRun sch (f + 1) (.tree cls depth) acc =
      if depth = 0 then .error .assertError
      else if cls ∈ acc then .ok acc
      else
        match treeRun sch f (.fieldsJ (fieldsOf sch cls) depth) (acc ++ [cls]) with
        | .error e => .error e
        | .ok acc1 =>
          treeRun sch f (.ownedJ ((owned_models sch cls).map Prod.fst) depth) acc1 := rfl

theorem treeRun_fieldsJ_nil (sch : Schema) (f depth : Nat) (acc : List ClassName) :
    treeRun sch (f + 1) (.fieldsJ [] depth) acc = .ok acc := rfl

theorem treeRun_fieldsJ_scalar (sch : Schema) (f depth : Nat) (k : String)
    (fs : List (String × FKind)) (acc : List ClassName) :
    treeRun sch (f + 1) (.fieldsJ ((k, .scalar) :: fs) depth) acc =
      treeRun sch f (.fieldsJ fs depth) acc := rfl

theorem treeRun_fieldsJ_other (sch : Schema) (f depth : Nat) (k : String)
    (fs : List (String × FKind)) (acc : List ClassName) :
    treeRun sch (f + 1) (.fieldsJ ((k, .other) :: fs) depth) acc =
      .error .unknownFieldType := rfl

theorem treeRun_fieldsJ_fk (sch : Schema) (f depth : Nat) (k : String)
    (target : ClassName) (fs : List (String × FKind)) (acc : List ClassName) :
    treeRun sch (f + 1) (.fieldsJ ((k, .fk target) :: fs) depth) acc =
      match treeRun sch f (.tree target (depth - 1)) acc with
      | .error e => .error e
      | .ok acc1 => treeRun sch f (.fieldsJ fs depth) acc1 := rfl

theorem treeRun_ownedJ_nil (sch : Schema) (f depth : Nat) (acc : List ClassName) :
    treeRun sch (f + 1) (.ownedJ [] depth) acc = .ok acc := rfl

theorem treeRun_ownedJ_cons (sch : Schema) (f depth : Nat) (c : ClassName)
    (cs : List ClassName) (acc : List ClassName) :
    treeRun sch (f + 1) (.ownedJ (c :: cs) depth) acc =
      match treeRun sch f (.tree c (depth - 1)) acc with
      | .error e => .error e
      | .ok acc1 => treeRun sch f (.ownedJ cs depth) acc1 := rfl

theorem treeRun_zero (sch : Schema) (j : TJob) (acc : List ClassName) :
    treeRun sch 0 j acc = .error .fuelOut := rfl

/-- Granting `treeRun` one more unit of fuel preserves any outcome other
than fuel exhaustion. -/
theorem treeRun_fuel_mono (sch : Schema) :
    ∀ (f : Nat) (j : TJob) (acc : List ClassName)
      (r : Except TErr (List ClassName)),
      treeRun sch f j acc = r → r ≠ .error .fuelOut →
      treeRun sch (f + 1) j acc = r := by
  intro f
  induction f with
  | zero =>
    intro j acc r h hne
    rw [treeRun_zero] at h
    exact absurd h.symm hne
  | succ f ih =>
    intro j acc r h hne
    cases j with
    | tree cls depth =>
      rw [treeRun_tree_eq] at h ⊢
      by_cases hd : depth = 0
      · simpa [hd] using h
      · simp only [hd, if_false] at h ⊢
        by_cases hm : cls ∈ acc
        · simpa [hm] using h
        · simp only [hm, if_false] at h ⊢
          cases h1 : treeRun sch f (.fieldsJ (fieldsOf sch cls) depth) (acc ++ [cls]) with
          | error e =>
            rw [h1] at h
            have he : e ≠ .fuelOut := by
              rintro rfl; rw [← h] at hne; exact hne rfl
            rw [ih _ _ _ h1 (by simpa using he)]
            exact h
          | ok acc1 =>
            rw [h1] at h
            rw [ih _ _ _ h1 (by simp)]
            exact ih _ _ _ h hne
    | fieldsJ fs depth =>
      cases fs with
      | nil => rw [treeRun_fieldsJ_nil] at h ⊢; exact h
      | cons fd fs' =>
        obtain ⟨k, kind⟩ := fd
        cases kind with
        | scalar =>
          rw [treeRun_fieldsJ_scalar] at h ⊢
          exact ih _ _ _ h hne
        | other => rw [treeRun_fieldsJ_other] at h ⊢; exact h
        | fk target =>
          rw [treeRun_fieldsJ_fk] at h ⊢
          cases h1 : treeRun sch f (.tree target (depth - 1)) acc with
          | error e =>
            rw [h1] at h
            have he : e ≠ .fuelOut := by
              rintro rfl; rw [← h] at hne; exact hne rfl
            rw [ih _ _ _ h1 (by simpa using he)]
            exact h
          | ok acc1 =>
            rw [h1] at h
            rw [ih _ _ _ h1 (by simp)]
            exact ih _ _ _ h hne
    | ownedJ cs depth =>
      cases cs with
      | nil => rw [treeRun_ownedJ_nil] at h ⊢; exact h
      | cons c cs' =>
        rw [treeRun_ownedJ_cons] at h ⊢
        cases h1 : treeRun sch f (.tree c (depth - 1)) acc with
        | error e =>
          rw [h1] at h
          have he : e ≠ .fuelOut := by
            rintro rfl; rw [← h] at hne; exact hne rfl
          rw [ih _ _ _ h1 (by simpa using he)]
          exact h
        | ok acc1 =>
          rw [h1] at h
          rw [ih _ _ _ h1 (by simp)]
          exact ih _ _ _ h hne

/-- Fuel weakening for `treeRun`, `≤` form. -/
theorem treeRun_le_mono (sch : Schema) {f g : Nat} (hfg : f ≤ g)
    {j : TJob} {acc : List ClassName} {r : Except TErr (List ClassName)}
    (h : treeRun sch f j acc = r) (hne : r ≠ .error .fuelOut) :
    treeRun sch g j acc = r := by
  induction g with
  | zero =>
    have : f = 0 := Nat.le_zero.mp hfg
    subst this; exact h
  | succ g ihg =>
    rcases Nat.lt_or_ge f (g + 1) with hlt | hge
    · exact treeRun_fuel_mono sch g _ _ _ (ihg (Nat.lt_succ_iff.mp hlt)) hne
    · have : f = g + 1 := Nat.le_antisymm hfg hge
      subst this; exact h

/-- `all_models_in_tree` terminates on every type graph: for every
schema, depth bound, starting class and accumulator there is enough fuel
for `treeRun` to deliver a verdict (the recursion is bounded by the
depth argument, so fuel exhaustion is avoidable). -/
theorem treeRun_adequate (sch : Schema) :
    ∀ (depth : Nat),
      (∀ fs acc, ∃ f, treeRun sch f (.fieldsJ fs depth) acc ≠ .error .fuelOut)
      ∧ (∀ cs acc, ∃ f, treeRun sch f (.ownedJ cs depth) acc ≠ .error .fuelOut)
      ∧ (∀ cls acc, ∃ f, treeRun sch f (.tree cls depth) acc ≠ .error .fuelOut) := by
  intro depth
  induction depth with
  | zero =>
    have htree : ∀ cls acc, treeRun sch 1 (.tree cls 0) acc = .error .assertError := by
      intro cls acc; rw [show (1 : Nat) = 0 + 1 from rfl, treeRun_tree_eq]; simp
    refine ⟨?_, ?_, ?_⟩
    · intro fs
      induction fs with
      | nil => intro acc; exact ⟨1, by rw [treeRun_fieldsJ_nil]; simp⟩
      | cons fd fs' ihfs =>
        intro acc
        obtain ⟨k, kind⟩ := fd
        cases kind with
        | scalar =>
          obtain ⟨f, hf⟩ := ihfs acc
          exact ⟨f + 1, by rw [treeRun_fieldsJ_scalar]; exact hf⟩
        | other => exact ⟨1, by rw [treeRun_fieldsJ_other]; simp⟩
        | fk target =>
          refine ⟨2, ?_⟩
          rw [show (2 : Nat) = 1 + 1 from rfl, treeRun_fieldsJ_fk, Nat.zero_sub,
            htree target acc]
          simp
    · intro cs
      induction cs with
      | nil => intro acc; exact ⟨1, by rw [treeRun_ownedJ_nil]; simp⟩
      | cons c cs' ihcs =>
        intro acc
        refine ⟨2, ?_⟩
        rw [show (2 : Nat) = 1 + 1 from rfl, treeRun_ownedJ_cons, Nat.zero_sub,
          htree c acc]
        simp
    · intro cls acc
      exact ⟨1, by rw [show (1 : Nat) = 0 + 1 from rfl, treeRun_tree_eq]; simp⟩
  | succ d ih =>
    obtain ⟨_, _, ihtree⟩ := ih
    have hfields : ∀ fs acc,
        ∃ f, treeRun sch f (.fieldsJ fs (d + 1)) acc ≠ .error .fuelOut := by
      intro fs
      induction fs with
      | nil => intro acc; exact ⟨1, by rw [treeRun_fieldsJ_nil]; simp⟩
      | cons fd fs' ihfs =>
        intro acc
        obtain ⟨k, kind⟩ := fd
        cases kind with
        | scalar =>
          obtain ⟨f, hf⟩ := ihfs acc
          exact ⟨f + 1, by rw [treeRun_fieldsJ_scalar]; exact hf⟩
        | other => exact ⟨1, by rw [treeRun_fieldsJ_other]; simp⟩
        | fk target =>
          obtain ⟨f1, hf1⟩ := ihtree target acc
          cases h1 : treeRun sch f1 (.tree target (d + 1 - 1)) acc with
          | error e =>
            have he : e ≠ .fuelOut := by rintro rfl; exact hf1 h1
            refine ⟨f1 + 1, ?_⟩
            rw [treeRun_fieldsJ_fk, h1]
            simpa using he
          | ok acc1 =>
            obtain ⟨f2, hf2⟩ := ihfs acc1
            refine ⟨max f1 f2 + 1, ?_⟩
            rw [treeRun_fieldsJ_fk,
              treeRun_le_mono sch (le_max_left f1 f2) h1 (by simp)]
            dsimp only
            cases h2 : treeRun sch f2 (.fieldsJ fs' (d + 1)) acc1 with
            | error e =>
              have he : e ≠ .fuelOut := by rintro rfl; exact hf2 h2
              rw [treeRun_le_mono sch (le_max_right f1 f2) h2 (by simpa using he)]
              simpa using he
            | ok acc2 =>
              rw [treeRun_le_mono sch (le_max_right f1 f2) h2 (by simp)]
              simp
    have howned : ∀ cs acc,
        ∃ f, treeRun sch f (.ownedJ cs (d + 1)) acc ≠ .error .fuelOut := by
      intro cs
      induction cs with
      | nil => intro acc; exact ⟨1, by rw [treeRun_ownedJ_nil]; simp⟩
      | cons c cs' ihcs =>
        intro acc
        obtain ⟨f1, hf1⟩ := ihtree c acc
        cases h1 : treeRun sch f1 (.tree c (d + 1 - 1)) acc with
        | error e =>
          have he : e ≠ .fuelOut := by rintro rfl; exact hf1 h1
          refine ⟨f1 + 1, ?_⟩
          rw [treeRun_ownedJ_cons, h1]
          simpa using he
        | ok acc1 =>
          obtain ⟨f2, hf2⟩ := ihcs acc1
          refine ⟨max f1 f2 + 1, ?_⟩
          rw [treeRun_ownedJ_cons,
            treeRun_le_mono sch (le_max_left f1 f2) h1 (by simp)]
          dsimp only
          cases h2 : treeRun sch f2 (.ownedJ cs' (d + 1)) acc1 with
          | error e =>
            have he : e ≠ .fuelOut := by rintro rfl; exact hf2 h2
            rw [treeRun_le_mono sch (le_max_right f1 f2) h2 (by simpa using he)]
            simpa using he
          | ok acc2 =>
            rw [treeRun_le_mono sch (le_max_right f1 f2) h2 (by simp)]
            simp
    refine ⟨hfields, howned, ?_⟩
    intro cls acc
    by_cases hm : cls ∈ acc
    · exact ⟨1, by rw [show (1 : Nat) = 0 + 1 from rfl, treeRun_tree_eq]; simp [hm]⟩
    · obtain ⟨f1, hf1⟩ := hfields (fieldsOf sch cls) (acc ++ [cls])
      cases h1 : treeRun sch f1 (.fieldsJ (fieldsOf sch cls) (d + 1)) (acc ++ [cls]) with
      | error e =>
        have he : e ≠ .fuelOut := by rintro rfl; exact hf1 h1
        refine ⟨f1 + 1, ?_⟩
        rw [treeRun_tree_eq]
        simp only [Nat.succ_ne_zero, if_false, hm, if_false]
        rw [h1]
        simpa using he
      | ok acc1 =>
        obtain ⟨f2, hf2⟩ := howned ((owned_models sch cls).map Prod.fst) acc1
        refine ⟨max f1 f2 + 1, ?_⟩
        rw [treeRun_tree_eq]
        simp only [Nat.succ_ne_zero, if_false, hm, if_false]
        rw [treeRun_le_mono sch (le_max_left f1 f2) h1 (by simp)]
        dsimp only
        cases h2 : treeRun sch f2 (.ownedJ ((owned_models sch cls).map Prod.fst) (d + 1)) acc1 with
        | error e =>
          have he : e ≠ .fuelOut := by rintro rfl; exact hf2 h2
          rw [treeRun_le_mono sch (le_max_right f1 f2) h2 (by simpa using he)]
          simpa using he
        | ok acc2 =>
          rw [treeRun_le_mono sch (le_max_right f1 f2) h2 (by simp)]
          simp

/-- The discovery loop performs at most as many rounds as it has round
fuel. -/
theorem discoverAux_rounds_le (sch : Schema) (tf : Nat) :
    ∀ (rf i : Nat) (objs l : List ClassName) (n : Nat),
      discoverAux sch tf rf i objs = .ok (l, n) → n ≤ rf := by
  intro rf
  induction rf with
  | zero =>
    intro i objs l n h
    simp only [discoverAux] at h
    cases h
    exact Nat.zero_le 0
  | succ rf ih =>
    intro i objs l n h
    simp only [discoverAux] at h
    split at h
    · cases h1 : all_models_in_tree sch tf (objs.getD i "") [] with
      | error e => rw [h1] at h; cases h
      | ok newObjs =>
        rw [h1] at h
        dsimp only at h
        cases h2 : discoverAux sch tf rf (i + 1)
            (objs ++ newObjs.filter (fun c => c ∉ objs)) with
        | error e => rw [h2] at h; cases h
        | ok p =>
          obtain ⟨l', n'⟩ := p
          rw [h2] at h
          cases h
          exact Nat.succ_le_succ (ih _ _ _ _ h2)
    · cases h
      exact Nat.zero_le _

/-- A chain of 21 classes, each holding a foreign key to the next: deep
enough to exhaust the default depth bound of 20. -/
def chainSch : Schema :=
  (List.range 21).map (fun i =>
    ("c.K" ++ toString i,
     if i < 20 then [("nxt", FKind.fk ("c.K" ++ toString (i + 1)))] else []))

/-- C8: `all_models_in_tree` terminates for every type graph (adequate
fuel always exists, the recursion being bounded by its depth argument);
a call whose depth bound is exhausted fails the `assert depth` assertion
rather than silently truncating — both at the generic depth-0 entry and
concretely on a 21-deep chain against the default bound of 20 — and the
type-discovery loop of `delete_all_models_in_db` performs at most 10
expansion rounds. -/
theorem tree_discovery_bounded :
    (∀ (sch : Schema) (cls : ClassName) (depth : Nat) (acc : List ClassName),
      ∃ f, treeRun sch f (.tree cls depth) acc ≠ .error .fuelOut)
    ∧ (∀ (sch : Schema) (cls : ClassName) (acc : List ClassName) (f : Nat),
      treeRun sch (f + 1) (.tree cls 0) acc = .error .assertError)
    ∧ all_models_in_tree chainSch 100 "c.K0" [] = .error .assertError
    ∧ (∀ (sch : Schema) (tf : Nat) (roots : List ClassName) (store : Store)
        (l : List ClassName) (n : Nat) (st' : Store),
      delete_all_models_in_db sch tf roots store = .ok (l, n, st') → n ≤ 10) := by
  refine ⟨?_, ?_, ?_, ?_⟩
  · intro sch cls depth acc
    exact (treeRun_adequate sch depth).2.2 cls acc
  · intro sch cls acc f
    rw [treeRun_tree_eq]
    simp
  · rfl
  · intro sch tf roots store l n st' h
    simp only [delete_all_models_in_db] at h
    cases h1 : discoverAux sch tf 10 0 roots with
    | error e => rw [h1] at h; cases h
    | ok p =>
      obtain ⟨objs, n'⟩ := p
      rw [h1] at h
      dsimp only at h
      cases h
      exact discoverAux_rounds_le sch tf 10 0 roots _ _ h1

/-- Witness for C8 at a concrete schema: one owner class and one owned
class; discovery succeeds in 2 rounds, and the theorem bounds that count
by 10. -/
theorem tree_discovery_bounded_witness :
    ∃ l n st', delete_all_models_in_db [("m.A", []), ("m.B", [("a", FKind.fk "m.A")])]
        100 ["m.A"] [] = .ok (l, n, st') ∧ n ≤ 10 := by
  refine ⟨["m.A", "m.B"], 2, [], rfl, ?_⟩
  exact tree_discovery_bounded.2.2.2 [("m.A", []), ("m.B", [("a", FKind.fk "m.A")])]
    100 ["m.A"] [] ["m.A", "m.B"] 2 [] rfl

/-! ### The graph serializer: `models_to_xml`, `_model_to_xml`,
`_field_to_xml` -/

/-- Serialization errors.  `unknownType` is the
`raise Exception('Unknown type: ...')` of `_field_to_xml`; `nameError`
is the `NameError` the postprocess drain of `models_to_xml` would raise
(its first iteration reads the popped closure variable before binding
it: `x = x['postprocess'].pop(0)`); `missingRelated` is a modelling
artifact for a foreign-key value whose target is absent from the store
(Django's referential integrity makes this unreachable);
`shapeError` is a modelling artifact for a job returning the wrong
result shape (unreachable); `fuelOut` is the fuel artifact. -/
inductive SErr where
  | unknownType (desc : String)
  | missingRelated
  | shapeError
  | nameError
  | fuelOut
deriving DecidableEq

/-- The serialization context dict: the `touched` set of instance
identities, the `owned_by` map from owned class to claiming value
(`None` for the seeded root classes, else the claiming owner class),
and the `postprocess` list (nothing is ever appended to it during
serialization, so its element type is immaterial). -/
structure SCtx where
  touched : List (ClassName × Int)
  owned_by : List (ClassName × Option ClassName)
  postprocess : List Unit
deriving DecidableEq

/-- The Python comparison `obj != context['owned_by'][cls]`: the stored
value is a class (or the seeded `None`), never an instance, and
`Model.__eq__` requires `isinstance(other, self.__class__)`, which a
class object and `None` both fail — so the inequality always holds. -/
def objNeOwnedBy (_ : Obj) (_ : Option ClassName) : Bool := true

/-- The work items of the serializer: `_model_to_xml` on an instance
(with the optional field name), its loop over the field name/value
pairs, `_field_to_xml` on one field, the loop over the owned relations
of `owned_models`, and the loop serializing one relation's owned
instances.  (The source's `_field_to_xml` also receives the owning
object, but never uses it.) -/
inductive SJob where
  | model (obj : Obj) (name : Option String)
  | fieldsJ (kvs : List (String × Value))
  | fieldJ (k : String) (v : Value)
  | ownedRels (obj : Obj) (rels : List (ClassName × String))
  | ownedObjs (objs : List Obj)

/-- Result of a serializer job: `_model_to_xml`/`_field_to_xml` produce
an optional element, the loops produce element lists. -/
inductive SOut where
  | single (e : Option Elem)
  | many (es : List Elem)

/-- `str()` of a Python int. -/
def intToStr (n : Int) : String := toString n

/-- `str()` of a `datetime.date`: ISO `YYYY-MM-DD`, zero padded. -/
def dateToStr (y m d : Nat) : String :=
  padTo 4 (toString y) ++ "-" ++ padTo 2 (toString m) ++ "-" ++ padTo 2 (toString d)
where
  padTo (w : Nat) (s : String) : String :=
    String.mk (List.replicate (w - s.length) '0') ++ s

/-- The reference-marker element `_model_to_xml` emits for an
already-touched instance required as a field value:
`_etn(name, type='reference', to_type=_path_to_class(...), text=repr(obj.pk))`. -/
def refMarker (k : String) (obj : Obj) : Elem :=
  .mk k (some "reference") (some obj.cls) (some (intToStr obj.pk)) []

/-- `_model_to_xml` / `_field_to_xml` and their loops, as one
fuel-indexed machine over the fixed schema and store.

Field enumeration: the source reads `values()[0].keys()` (all columns,
in unspecified dict order, `_id` suffixes stripped) and `getattr`s each;
the embedding fixes the order as `id` followed by the declared fields
and pairs names with values directly.

`obj in touched` / `touched.add(obj)` use the instance identity
(class, pk), as `Model.__eq__`/`__hash__` do.  The instance is added to
`touched` before any recursion.  No class supplies a `to_xml` override
in the embedding. -/
def serRun (sch : Schema) (store : Store) : Nat → SJob → SCtx →
    Except SErr (SOut × SCtx)
  | 0, _, _ => .error .fuelOut
  | fuel + 1, .model obj name, ctx =>
    if obj.id ∈ ctx.touched then
      match name with
      | none => .ok (.single none, ctx)
      | some k => .ok (.single (some (refMarker k obj)), ctx)
    else
      let ctx1 : SCtx := { ctx with touched := obj.id :: ctx.touched }
      match serRun sch store fuel (.fieldsJ (("id", .vint obj.pk) :: obj.fields)) ctx1 with
      | .error e => .error e
      | .ok (.single _, _) => .error .shapeError
      | .ok (.many fieldEls, ctx2) =>
        match serRun sch store fuel (.ownedRels obj (owned_models sch obj.cls)) ctx2 with
        | .error e => .error e
        | .ok (.single _, _) => .error .shapeError
        | .ok (.many ownedEls, ctx3) =>
          let children := fieldEls ++
            (if ownedEls.isEmpty then []
             else [Elem.mk "___owned" none none none ownedEls])
          match name with
          | none => .ok (.single (some (.mk obj.cls none none none children)), ctx3)
          | some k => .ok (.single (some (.mk k (some obj.cls) none none children)), ctx3)
  | _ + 1, .fieldsJ [], ctx => .ok (.many [], ctx)
  | fuel + 1, .fieldsJ ((k, v) :: kvs), ctx =>
    match serRun sch store fuel (.fieldJ k v) ctx with
    | .error e => .error e
    | .ok (.many _, _) => .error .shapeError
    | .ok (.single e?, ctx1) =>
      match serRun sch store fuel (.fieldsJ kvs) ctx1 with
      | .error e => .error e
      | .ok (.single _, _) => .error .shapeError
      | .ok (.many es, ctx2) => .ok (.many (e?.toList ++ es), ctx2)
  | fuel + 1, .fieldJ k v, ctx =>
    match v with
    | .vmodel c p =>
      match store.find? (fun o2 => o2.cls == c && o2.pk == p) with
      | some o2 => serRun sch store fuel (.model o2 (some k)) ctx
      | none => .error .missingRelated
    | .vint n => .ok (.single (some (.mk k (some "int") none (some (intToStr n)) [])), ctx)
    | .vstr s => .ok (.single (some (.mk k (some "str") none (some s) [])), ctx)
    | .vuni s => .ok (.single (some (.mk k (some "unicode") none (some s) [])), ctx)
    | .vdatetime dt =>
      .ok (.single (some (.mk k (some "datetime") none (some (_datetime_to_str dt)) [])), ctx)
    | .vdate y m d =>
      .ok (.single (some (.mk k (some "date") none (some (dateToStr y m d)) [])), ctx)
    | .vbool b =>
      .ok (.single (some (.mk k (some "bool") none (some (if b then "True" else "False")) [])), ctx)
    | .vnone => .error (.unknownType "NoneType")
  | _ + 1, .ownedRels _ [], ctx => .ok (.many [], ctx)
  | fuel + 1, .ownedRels obj ((c, fkname) :: rels), ctx =>
    match ctx.owned_by.lookup c with
    | none =>
      let ctx1 : SCtx := { ctx with owned_by := (c, some obj.cls) :: ctx.owned_by }
      let members := store.filter (fun o2 => o2.cls == c &&
        (match o2.fields.lookup fkname with
         | some (.vmodel _ p) => p == obj.pk
         | _ => false))
      match serRun sch store fuel (.ownedObjs members) ctx1 with
      | .error e => .error e
      | .ok (.single _, _) => .error .shapeError
      | .ok (.many es, ctx2) =>
        match serRun sch store fuel (.ownedRels obj rels) ctx2 with
        | .error e => .error e
        | .ok (.single _, _) => .error .shapeError
        | .ok (.many es2, ctx3) => .ok (.many (es ++ es2), ctx3)
    | some v =>
      if objNeOwnedBy obj v then
        serRun sch store fuel (.ownedRels obj rels) ctx
      else
        let members := store.filter (fun o2 => o2.cls == c &&
          (match o2.fields.lookup fkname with
           | some (.vmodel _ p) => p == obj.pk
           | _ => false))
        match serRun sch store fuel (.ownedObjs members) ctx with
        | .error e => .error e
        | .ok (.single _, _) => .error .shapeError
        | .ok (.many es, ctx2) =>
          match serRun sch store fuel (.ownedRels obj rels) ctx2 with
          | .error e => .error e
          | .ok (.single _, _) => .error .shapeError
          | .ok (.many es2, ctx3) => .ok (.many (es ++ es2), ctx3)
  | _ + 1, .ownedObjs [], ctx => .ok (.many [], ctx)
  | fuel + 1, .ownedObjs (o :: os), ctx =>
    match serRun sch store fuel (.model o none) ctx with
    | .error e => .error e
    | .ok (.many _, _) => .error .shapeError
    | .ok (.single e?, ctx1) =>
      match serRun sch store fuel (.ownedObjs os) ctx1 with
      | .error e => .error e
      | .ok (.single _, _) => .error .shapeError
      | .ok (.many es, ctx2) => .ok (.many (e?.toList ++ es), ctx2)

/-- `_model_to_xml(obj, context, name)` (default path). -/
def _model_to_xml (sch : Schema) (store : Store) (fuel : Nat) (obj : Obj)
    (name : Option String) (ctx : SCtx) : Except SErr (Option Elem × SCtx) :=
  match serRun sch store fuel (.model obj name) ctx with
  | .ok (.single e?, ctx') => .ok (e?, ctx')
  | .ok (.many _, _) => .error .shapeError
  | .error e => .error e

/-- `_field_to_xml(obj, k, v, context)` (the `obj` argument is unused in
the source). -/
def _field_to_xml (sch : Schema) (store : Store) (fuel : Nat) (k : String)
    (v : Value) (ctx : SCtx) : Except SErr (Option Elem × SCtx) :=
  match serRun sch store fuel (.fieldJ k v) ctx with
  | .ok (.single e?, ctx') => .ok (e?, ctx')
  | .ok (.many _, _) => .error .shapeError
  | .error e => .error e

/-- The inner loop of `models_to_xml`: for each instance of a class, if
not already touched, serialize it and append the element (if any). -/
def topObjsLoop (sch : Schema) (store : Store) (fuel : Nat) :
    List Obj → List Elem → SCtx → Except SErr (List Elem × SCtx)
  | [], acc, ctx => .ok (acc, ctx)
  | o :: os, acc, ctx =>
    if o.id ∈ ctx.touched then topObjsLoop sch store fuel os acc ctx
    else
      match _model_to_xml sch store fuel o none ctx with
      | .error e => .error e
      | .ok (none, ctx1) => topObjsLoop sch store fuel os acc ctx1
      | .ok (some e, ctx1) => topObjsLoop sch store fuel os (acc ++ [e]) ctx1

/-- The outer loop of `models_to_xml` over the working class list. -/
def classLoop (sch : Schema) (store : Store) (fuel : Nat) :
    List ClassName → List Elem → SCtx → Except SErr (List Elem × SCtx)
  | [], acc, ctx => .ok (acc, ctx)
  | c :: cs, acc, ctx =>
    match topObjsLoop sch store fuel (store.filter (fun o => o.cls == c)) acc ctx with
    | .error e => .error e
    | .ok (acc1, ctx1) => classLoop sch store fuel cs acc1 ctx1

/-- `models_to_xml(models_to_serialize, include_rest_of_app=True)`: the
working set is the roots plus every other class of the app (the
source's `set()` iteration order is unspecified; the embedding fixes
schema order); `owned_by` is seeded with the root classes mapped to
`None`; after the traversal, the postprocess loop would raise a
`NameError` on its first iteration were the queue ever nonempty. -/
def workingClasses (sch : Schema) (roots : List ClassName) : List ClassName :=
  roots ++ (classNames sch).filter (fun c => ¬ roots.contains c)

def ctx0 (roots : List ClassName) : SCtx :=
  ⟨[], roots.map (fun c => (c, none)), []⟩

def models_to_xml (sch : Schema) (store : Store) (roots : List ClassName)
    (fuel : Nat) : Except SErr Elem :=
  match classLoop sch store fuel (workingClasses sch roots) [] (ctx0 roots) with
  | .error e => .error e
  | .ok (children, ctx) =>
    if ctx.postprocess.isEmpty then .ok (.mk "ModelData" none none none children)
    else .error .nameError

/-! ### One-step unfolding equations for `serRun` -/

theorem serRun_zero (sch : Schema) (store : Store) (j : SJob) (ctx : SCtx) :
    serRun sch store 0 j ctx = .error .fuelOut := rfl

theorem serRun_model_eq (sch : Schema) (store : Store) (f : Nat) (obj : Obj)
    (name : Option String) (ctx : SCtx) :
    serRun sch store (f + 1) (.model obj name) ctx =
      if obj.id ∈ ctx.touched then
        match name with
        | none => .ok (.single none, ctx)
        | some k => .ok (.single (some (refMarker k obj)), ctx)
      else
        let ctx1 : SCtx := { ctx with touched := obj.id :: ctx.touched }
        match serRun sch store f (.fieldsJ (("id", .vint obj.pk) :: obj.fields)) ctx1 with
        | .error e => .error e
        | .ok (.single _, _) => .error .shapeError
        | .ok (.many fieldEls, ctx2) =>
          match serRun sch store f (.ownedRels obj (owned_models sch obj.cls)) ctx2 with
          | .error e => .error e
          | .ok (.single _, _) => .error .shapeError
          | .ok (.many ownedEls, ctx3) =>
            let children := fieldEls ++
              (if ownedEls.isEmpty then []
               else [Elem.mk "___owned" none none none ownedEls])
            match name with
            | none => .ok (.single (some (.mk obj.cls none none none children)), ctx3)
            | some k => .ok (.single (some (.mk k (some obj.cls) none none children)), ctx3) := rfl

theorem serRun_fieldsJ_nil (sch : Schema) (store : Store) (f : Nat) (ctx : SCtx) :
    serRun sch store (f + 1) (.fieldsJ []) ctx = .ok (.many [], ctx) := rfl

theorem serRun_fieldsJ_cons (sch : Schema) (store : Store) (f : Nat)
    (k : String) (v : Value) (kvs : List (String × Value)) (ctx : SCtx) :
    serRun sch store (f + 1) (.fieldsJ ((k, v) :: kvs)) ctx =
      match serRun sch store f (.fieldJ k v) ctx with
      | .error e => .error e
      | .ok (.many _, _) => .error .shapeError
      | .ok (.single e?, ctx1) =>
        match serRun sch store f (.fieldsJ kvs) ctx1 with
        | .error e => .error e
        | .ok (.single _, _) => .error .shapeError
        | .ok (.many es, ctx2) => .ok (.many (e?.toList ++ es), ctx2) := rfl

theorem serRun_fieldJ_vmodel (sch : Schema) (store : Store) (f : Nat)
    (k : String) (c : ClassName) (p : Int) (ctx : SCtx) :
    serRun sch store (f + 1) (.fieldJ k (.vmodel c p)) ctx =
      match store.find? (fun o2 => o2.cls == c && o2.pk == p) with
      | some o2 => serRun sch store f (.model o2 (some k)) ctx
      | none => .error .missingRelated := rfl

theorem serRun_fieldJ_vint (sch : Schema) (store : Store) (f : Nat)
    (k : String) (n : Int) (ctx : SCtx) :
    serRun sch store (f + 1) (.fieldJ k (.vint n)) ctx =
      .ok (.single (some (.mk k (some "int") none (some (intToStr n)) [])), ctx) := rfl

theorem serRun_fieldJ_vnone (sch : Schema) (store : Store) (f : Nat)
    (k : String) (ctx : SCtx) :
    serRun sch store (f + 1) (.fieldJ k .vnone) ctx =
      .error (.unknownType "NoneType") := rfl

theorem serRun_ownedRels_nil (sch : Schema) (store : Store) (f : Nat)
    (obj : Obj) (ctx : SCtx) :
    serRun sch store (f + 1) (.ownedRels obj []) ctx = .ok (.many [], ctx) := rfl

theorem serRun_ownedRels_cons (sch : Schema) (store : Store) (f : Nat)
    (obj : Obj) (c : ClassName) (fkname : String)
    (rels : List (ClassName × String)) (ctx : SCtx) :
    serRun sch store (f + 1) (.ownedRels obj ((c, fkname) :: rels)) ctx =
      match ctx.owned_by.lookup c with
      | none =>
        let ctx1 : SCtx := { ctx with owned_by := (c, some obj.cls) :: ctx.owned_by }
        let members := store.filter (fun o2 => o2.cls == c &&
          (match o2.fields.lookup fkname with
           | some (.vmodel _ p) => p == obj.pk
           | _ => false))
        match serRun sch store f (.ownedObjs members) ctx1 with
        | .error e => .error e
        | .ok (.single _, _) => .error .shapeError
        | .ok (.many es, ctx2) =>
          match serRun sch store f (.ownedRels obj rels) ctx2 with
          | .error e => .error e
          | .ok (.single _, _) => .error .shapeError
          | .ok (.many es2, ctx3) => .ok (.many (es ++ es2), ctx3)
      | some v =>
        if objNeOwnedBy obj v then
          serRun sch store f (.ownedRels obj rels) ctx
        else
          let members := store.filter (fun o2 => o2.cls == c &&
            (match o2.fields.lookup fkname with
             | some (.vmodel _ p) => p == obj.pk
             | _ => false))
          match serRun sch store f (.ownedObjs members) ctx with
          | .error e => .error e
          | .ok (.single _, _) => .error .shapeError
          | .ok (.many es, ctx2) =>
            match serRun sch store f (.ownedRels obj rels) ctx2 with
            | .error e => .error e
            | .ok (.single _, _) => .error .shapeError
            | .ok (.many es2, ctx3) => .ok (.many (es ++ es2), ctx3) := rfl

theorem serRun_ownedObjs_nil (sch : Schema) (store : Store) (f : Nat) (ctx : SCtx) :
    serRun sch store (f + 1) (.ownedObjs []) ctx = .ok (.many [], ctx) := rfl

theorem serRun_ownedObjs_cons (sch : Schema) (store : Store) (f : Nat)
    (o : Obj) (os : List Obj) (ctx : SCtx) :
    serRun sch store (f + 1) (.ownedObjs (o :: os)) ctx =
      match serRun sch store f (.model o none) ctx with
      | .error e => .error e
      | .ok (.many _, _) => .error .shapeError
      | .ok (.single e?, ctx1) =>
        match serRun sch store f (.ownedObjs os) ctx1 with
        | .error e => .error e
        | .ok (.single _, _) => .error .shapeError
        | .ok (.many es, ctx2) => .ok (.many (e?.toList ++ es), ctx2) := rfl

/-! ### C9: there is no encoding for `None` -/

/-- A class whose single instance carries a `None`-valued field. -/
def schN : Schema := [("m.N", [("x", FKind.scalar)])]

def storeN : Store := [⟨"m.N", 1, [("x", .vnone)]⟩]

/-- C9: `_field_to_xml` has no branch for `None` — a `None`-valued field
falls through every type test to the fatal
`raise Exception('Unknown type: ...')`, for every field name, context,
schema, store and (positive) fuel; consequently `models_to_xml` of a
store containing an instance with a `None`-valued field fails with that
error rather than emitting any null encoding. -/
theorem none_field_fatal :
    (∀ (sch : Schema) (store : Store) (f : Nat) (k : String) (ctx : SCtx),
      _field_to_xml sch store (f + 1) k .vnone ctx = .error (.unknownType "NoneType"))
    ∧ models_to_xml schN storeN ["m.N"] 30 = .error (.unknownType "NoneType") := by
  exact ⟨fun sch store f k ctx => rfl, rfl⟩

/-! ### C3: ownership claiming across instances of the owner class -/

/-- Two classes: `m.B` holds a foreign key `a` to `m.A`, so `m.A` owns
`m.B` by default discovery. -/
def schAB : Schema := [("m.A", []), ("m.B", [("a", FKind.fk "m.A")])]

/-- Two `m.A` instances; the single `m.B` instance is owned by the
second one. -/
def storeC3 : Store :=
  [⟨"m.A", 1, []⟩, ⟨"m.A", 2, []⟩, ⟨"m.B", 1, [("a", .vmodel "m.A" 2)]⟩]

/-- C3 counter-evaluation: serializing `storeC3` from root `[m.A]`.  The
first `m.A` instance claims `m.B` (`owned_by[m.B] = m.A`) and nests its
(zero) owned instances; but when the second `m.A` instance — an instance
of the *claiming* owner class — is serialized, the code compares the
instance itself against the stored class (`obj != owned_by[cls]`, always
true) and skips its owned instances: its element carries no `___owned`
child, and its owned `m.B` instance surfaces as a third top-level
element instead of being nested.  (What the first-claimant rule does
ensure — no nesting under a different owner class — is visible in the
same output: `m.B` is nested under no one.) -/
theorem ownership_claim_skips_later_owner_instances :
    models_to_xml schAB storeC3 ["m.A"] 30 =
      .ok (.mk "ModelData" none none none
        [.mk "m.A" none none none [.mk "id" (some "int") none (some "1") []],
         .mk "m.A" none none none [.mk "id" (some "int") none (some "2") []],
         .mk "m.B" none none none
           [.mk "id" (some "int") none (some "1") [],
            .mk "a" (some "reference") (some "m.A") (some "2") []]]) := rfl

/-! ### The graph deserializer: `xml_to_models`, `xml_to_model`,
`_xml_to_attribs`, `_xml_to_field` -/

/-- Deserialization errors, named for the Python exception each
represents:
* `typeError` — a `TypeError`: `int(None)`, or the drain calling a
  deferred-reference closure without its required positional `obj`
  argument;
* `valueError` — a `ValueError`: unparsable `int(...)` text, or a class
  pathname with no dot (`rsplit` unpacking);
* `keyError` — the `{'True':..., 'False':...}[text]` lookup;
* `attributeError` — `None.rsplit` when `to_type` is missing;
* `assertError` — a failed `assert` (duplicate tag, unexpected child
  tag, unmatched datetime regex, ≥2 reference matches, class not found,
  non-`ModelData` root);
* `unknownType` — the fatal unknown-type-tag raise;
* `shapeError`, `fuelOut` — modelling artifacts as in `SErr`. -/
inductive DErr where
  | typeError
  | valueError
  | keyError
  | attributeError
  | assertError
  | unknownType (desc : String)
  | shapeError
  | fuelOut
deriving DecidableEq

/-- A closure on the `postprocess` queue:
* `owned child` — `lambda: xml_to_model(child, context)`, queued by
  `_xml_to_attribs` for each child of a `___owned` element; callable
  with no arguments.
* `refRetry fieldname cls pk` — the retry closure of `_xml_to_field`,
  `def fn(obj, fieldname=..., cls=..., kwargs=...)`: it *requires* a
  positional `obj` argument.  The source appends it directly to
  `context['postprocess']` (never to the inner `pp_needs_obj` list that
  `xml_to_model` would wrap with the created instance), so the drain's
  zero-argument call `fn()` raises `TypeError` before the closure body
  runs. -/
inductive PTask where
  | owned (child : Elem)
  | refRetry (fieldname : String) (cls : ClassName) (pk : Int)

/-- Deserialization state: the store being populated, the `postprocess`
FIFO queue, and the `pp_needs_obj` stack of lists.  Nothing in the
source ever appends to an inner `pp_needs_obj` list, so its element
type is `Empty`. -/
structure DState where
  store : Store
  queue : List PTask
  ppNeedsObj : List (List Empty)

/-- The work items of the deserializer: `xml_to_model` on an element,
the `_xml_to_attribs` loop over children (with the dict built so far),
`_xml_to_field` on one child, and the postprocess drain loop of
`xml_to_models`. -/
inductive DJob where
  | model (e : Elem)
  | attribs (cs : List Elem) (acc : List (String × Value))
  | fieldJ (e : Elem) (fieldname : String)
  | drain

/-- Result of a deserializer job. -/
inductive DOut where
  | obj (o : Obj)
  | dict (d : List (String × Value))
  | val (v : Value)
  | done

/-- `c in s` on strings (kernel-computable form). -/
def strContains (s : String) (c : Char) : Bool := s.toList.contains c

/-- `s.startswith(p)` (kernel-computable form). -/
def strStartsWith (s p : String) : Bool := s.toList.take p.toList.length == p.toList

/-- Python `int(text)` on a decimal literal with optional leading minus
sign (the embedding omits `int`'s tolerance for surrounding whitespace
and an explicit `+`, which the module never produces); failure is a
`ValueError`. -/
def parseInt (s : String) : Option Int :=
  match s.toList with
  | '-' :: ds =>
    if ds ≠ [] ∧ ds.all Char.isDigit then some (-(digitsToNat ds : Int)) else none
  | ds =>
    if ds ≠ [] ∧ ds.all Char.isDigit then some ((digitsToNat ds : Int)) else none

/-- Python `int(text)` where a nonnegative result is expected (the date
parts); a nonempty all-digit group. -/
def parseNat (s : String) : Option Nat :=
  if s.toList ≠ [] ∧ s.toList.all Char.isDigit then some (digitsToNat s.toList)
  else none

/-- `text.split(sep)` (kernel-computable form). -/
def splitOnChar (sep : Char) (cs : List Char) : List (List Char) :=
  cs.foldr (fun c acc =>
    if c = sep then [] :: acc
    else match acc with
      | g :: gs => (c :: g) :: gs
      | [] => [[c]]) [[]]

/-- `_get_class_from_class_pathname`: `rsplit('.', 1)` (no dot → a
`ValueError` from unpacking), module import, and the
`assert cls_name in sys.modules[...]` check; in the embedding a class
exists iff it is in the schema. -/
def resolveClass (sch : Schema) (s : String) : Except DErr ClassName :=
  if ¬ strContains s '.' then .error .valueError
  else if s ∈ classNames sch then .ok s
  else .error .assertError

/-- The next auto-assigned primary key for a class (the store's
autoincrement sequence: one more than the largest existing pk). -/
def autoPk (store : Store) (cls : ClassName) : Int :=
  ((store.filter (fun o => o.cls == cls)).map Obj.pk).foldl max 0 + 1

/-- `cls.objects.create(**attributes_dict)`: an explicit integer `id`
attribute becomes the primary key (this is what preserves pks across a
dump/reload cycle); otherwise the store assigns one.  The remaining
attributes become the instance's fields.  The embedding's store is
permissive: it enforces no uniqueness or nullability constraints. -/
def createObj (cls : ClassName) (d : List (String × Value)) (store : Store) : Obj :=
  let pk := match d.lookup "id" with
    | some (.vint n) => n
    | _ => autoPk store cls
  ⟨cls, pk, d.filter (fun kv => kv.1 ≠ "id")⟩

/-- `xml_to_model` / `_xml_to_attribs` / `_xml_to_field` and the drain
loop of `xml_to_models`, as one fuel-indexed machine.

* `.model`: push an (always empty) `pp_needs_obj` list, resolve the
  class from the `type` attribute (or the tag), build the attribute
  dict, create the instance, pop-and-wrap the (empty) list.  No class
  supplies `from_xml`/`xml_to_attribs` overrides in the embedding.
* `.attribs`: children tagged `__x` (but not `___x`) are skipped; a
  child with a `type` attribute is decoded (duplicate tags are an
  assertion failure); a child without one must be `___owned`, whose
  children are queued as deferred creations.
* `.fieldJ`: a dotted type tag is a nested full instance; otherwise the
  scalar codecs; `reference` looks up `to_type` by pk — 0 matches
  queues the retry closure and yields `None`, ≥2 is an assertion
  failure.
* `.drain`: `while postprocess: fn = pop(0); fn()` — an `owned` task
  runs `xml_to_model`; a `refRetry` task raises `TypeError` (see
  `PTask`). -/
def deserRun (sch : Schema) : Nat → DJob → DState → Except DErr (DOut × DState)
  | 0, _, _ => .error .fuelOut
  | fuel + 1, .model e, st =>
    let st1 : DState := { st with ppNeedsObj := [] :: st.ppNeedsObj }
    match resolveClass sch (e.typ.getD e.tag) with
    | .error er => .error er
    | .ok cls =>
      match deserRun sch fuel (.attribs e.children []) st1 with
      | .error er => .error er
      | .ok (.dict d, st2) =>
        let obj := createObj cls d st2.store
        let pps := st2.ppNeedsObj.headD []
        let st3 : DState :=
          { st2 with store := st2.store ++ [obj],
                     ppNeedsObj := st2.ppNeedsObj.tail,
                     queue := st2.queue ++ pps.map (fun pp => pp.elim) }
        .ok (.obj obj, st3)
      | .ok _ => .error .shapeError
  | _ + 1, .attribs [] acc, st => .ok (.dict acc, st)
  | fuel + 1, .attribs (c :: cs) acc, st =>
    if strStartsWith c.tag "__" && ¬ strStartsWith c.tag "___" then
      deserRun sch fuel (.attribs cs acc) st
    else
      match c.typ with
      | some _ =>
        if acc.any (fun kv => kv.1 == c.tag) then .error .assertError
        else
          match deserRun sch fuel (.fieldJ c c.tag) st with
          | .error er => .error er
          | .ok (.val v, st1) =>
            deserRun sch fuel (.attribs cs (acc ++ [(c.tag, v)])) st1
          | .ok _ => .error .shapeError
      | none =>
        if c.tag == "___owned" then
          deserRun sch fuel (.attribs cs acc)
            { st with queue := st.queue ++ c.children.map PTask.owned }
        else .error .assertError
  | fuel + 1, .fieldJ e fieldname, st =>
    let typ := e.typ.getD e.tag
    if strContains typ '.' then
      match deserRun sch fuel (.model e) st with
      | .error er => .error er
      | .ok (.obj o, st1) => .ok (.val (.vmodel o.cls o.pk), st1)
      | .ok _ => .error .shapeError
    else if typ == "int" then
      match e.text with
      | none => .error .typeError
      | some t =>
        match parseInt t with
        | some n => .ok (.val (.vint n), st)
        | none => .error .valueError
    else if typ == "str" then
      .ok (.val (.vstr (e.text.getD "None")), st)
    else if typ == "unicode" then
      .ok (.val (.vuni (e.text.getD "None")), st)
    else if typ == "datetime" then
      match e.text with
      | none => .error .typeError
      | some t =>
        match _str_to_datetime t with
        | some dt => .ok (.val (.vdatetime dt), st)
        | none => .error .assertError
    else if typ == "date" then
      match e.text with
      | none => .error .attributeError
      | some t =>
        match ((splitOnChar '-' t.toList).map String.mk).mapM parseNat with
        | some [y, m, d] => .ok (.val (.vdate y m d), st)
        | some _ => .error .typeError
        | none => .error .valueError
    else if typ == "bool" then
      match e.text with
      | some t =>
        if t == "True" then .ok (.val (.vbool true), st)
        else if t == "False" then .ok (.val (.vbool false), st)
        else .error .keyError
      | none => .error .keyError
    else if typ == "reference" then
      match e.toType with
      | none => .error .attributeError
      | some tt =>
        match resolveClass sch tt with
        | .error er => .error er
        | .ok cls =>
          match e.text with
          | none => .error .typeError
          | some t =>
            match parseInt t with
            | none => .error .valueError
            | some pk =>
              let objs := st.store.filter (fun o => o.cls == cls && o.pk == pk)
              if 2 ≤ objs.length then .error .assertError
              else
                match objs with
                | [o] => .ok (.val (.vmodel o.cls o.pk), st)
                | _ => .ok (.val .vnone,
                    { st with queue := st.queue ++ [.refRetry fieldname cls pk] })
    else .error (.unknownType typ)
  | fuel + 1, .drain, st =>
    match st.queue with
    | [] => .ok (.done, st)
    | .owned e :: rest =>
      match deserRun sch fuel (.model e) { st with queue := rest } with
      | .error er => .error er
      | .ok (_, st1) => deserRun sch fuel .drain st1
    | .refRetry _ _ _ :: _ => .error .typeError

/-- `xml_to_model(xml, context)` (default path). -/
def xml_to_model (sch : Schema) (fuel : Nat) (e : Elem) (st : DState) :
    Except DErr (Obj × DState) :=
  match deserRun sch fuel (.model e) st with
  | .ok (.obj o, st') => .ok (o, st')
  | .ok _ => .error .shapeError
  | .error er => .error er

/-- `_xml_to_field(xml, context, fieldname)`. -/
def _xml_to_field (sch : Schema) (fuel : Nat) (e : Elem) (fieldname : String)
    (st : DState) : Except DErr (Value × DState) :=
  match deserRun sch fuel (.fieldJ e fieldname) st with
  | .ok (.val v, st') => .ok (v, st')
  | .ok _ => .error .shapeError
  | .error er => .error er

/-- The top-level loop of `xml_to_models` over the children of the
`ModelData` root. -/
def topLoopD (sch : Schema) (fuel : Nat) : List Elem → DState →
    Except DErr DState
  | [], st => .ok st
  | c :: cs, st =>
    match deserRun sch fuel (.model c) st with
    | .error er => .error er
    | .ok (_, st1) => topLoopD sch fuel cs st1

/-- `xml_to_models(toplevel_xml)`: check the `ModelData` root tag,
deserialize each child, then drain the postprocess queue to empty.
Returns the repopulated store. -/
def xml_to_models (sch : Schema) (fuel : Nat) (doc : Elem) (store0 : Store) :
    Except DErr Store :=
  if doc.tag ≠ "ModelData" then .error .assertError
  else
    match topLoopD sch fuel doc.children ⟨store0, [], []⟩ with
    | .error er => .error er
    | .ok st =>
      match deserRun sch fuel .drain st with
      | .error er => .error er
      | .ok (_, st') => .ok st'.store

/-! ### Deserializer lemmas -/

/-- A non-drain deserializer job only ever appends to the postprocess
queue (deferred owned creations and reference retries go to the back;
nothing is consumed outside the drain). -/
theorem deserRun_queue_extends (sch : Schema) :
    ∀ (f : Nat) (j : DJob) (st : DState) (out : DOut) (st' : DState),
      j ≠ .drain → deserRun sch f j st = .ok (out, st') →
      ∃ ts, st'.queue = st.queue ++ ts := by
  intro f
  induction f with
  | zero =>
    intro j st out st' hj h
    rw [show deserRun sch 0 j st = .error .fuelOut from rfl] at h
    cases h
  | succ f ih =>
    intro j st out st' hj h
    cases j with
    | drain => exact absurd rfl hj
    | model e =>
      simp only [deserRun] at h
      cases h1 : resolveClass sch (e.typ.getD e.tag) with
      | error er => rw [h1] at h; cases h
      | ok cls =>
        rw [h1] at h
        cases h2 : deserRun sch f (.attribs e.children [])
            { st with ppNeedsObj := [] :: st.ppNeedsObj } with
        | error er => rw [h2] at h; cases h
        | ok p =>
          obtain ⟨o2, st2⟩ := p
          rw [h2] at h
          cases o2 with
          | dict d =>
            cases h
            obtain ⟨ts, hts⟩ := ih _ _ _ _ (by simp) h2
            exact ⟨ts ++ (st2.ppNeedsObj.headD []).map (fun pp => pp.elim),
              by simp [hts]⟩
          | obj o => cases h
          | val v => cases h
          | done => cases h
    | attribs cs acc =>
      cases cs with
      | nil =>
        simp only [deserRun] at h
        cases h
        exact ⟨[], by simp⟩
      | cons c cs' =>
        simp only [deserRun] at h
        by_cases hskip : strStartsWith c.tag "__" && ¬ strStartsWith c.tag "___"
        · rw [if_pos hskip] at h
          exact ih _ _ _ _ (by simp) h
        · rw [if_neg hskip] at h
          cases hty : c.typ with
          | some ty =>
            rw [hty] at h
            by_cases hdup : acc.any (fun kv => kv.1 == c.tag)
            · rw [if_pos hdup] at h; cases h
            · rw [if_neg hdup] at h
              cases h2 : deserRun sch f (.fieldJ c c.tag) st with
              | error er => rw [h2] at h; cases h
              | ok p =>
                obtain ⟨o2, st1⟩ := p
                rw [h2] at h
                cases o2 with
                | val v =>
                  obtain ⟨ts1, hts1⟩ := ih _ _ _ _ (by simp) h2
                  obtain ⟨ts2, hts2⟩ := ih _ _ _ _ (by simp) h
                  exact ⟨ts1 ++ ts2, by simp [hts2, hts1]⟩
                | obj o => cases h
                | dict d => cases h
                | done => cases h
          | none =>
            rw [hty] at h
            by_cases howned : c.tag == "___owned"
            · rw [if_pos howned] at h
              obtain ⟨ts, hts⟩ := ih _ _ _ _ (by simp) h
              exact ⟨c.children.map PTask.owned ++ ts, by simp [hts]⟩
            · rw [if_neg howned] at h; cases h
    | fieldJ e fieldname =>
      simp only [deserRun] at h
      by_cases hdot : strContains (e.typ.getD e.tag) '.'
      · rw [if_pos hdot] at h
        cases h2 : deserRun sch f (.model e) st with
        | error er => rw [h2] at h; cases h
        | ok p =>
          obtain ⟨o2, st1⟩ := p
          rw [h2] at h
          cases o2 with
          | obj o =>
            cases h
            exact ih _ _ _ _ (by simp) h2
          | dict d => cases h
          | val v => cases h
          | done => cases h
      · rw [if_neg hdot] at h
        by_cases hint : (e.typ.getD e.tag) == "int"
        · rw [if_pos hint] at h
          cases he : e.text with
          | none => rw [he] at h; cases h
          | some t =>
            rw [he] at h
            dsimp only at h
            cases ht : parseInt t with
            | none => rw [ht] at h; cases h
            | some n => rw [ht] at h; cases h; exact ⟨[], by simp⟩
        · rw [if_neg hint] at h
          by_cases hstr : (e.typ.getD e.tag) == "str"
          · rw [if_pos hstr] at h; cases h; exact ⟨[], by simp⟩
          · rw [if_neg hstr] at h
            by_cases huni : (e.typ.getD e.tag) == "unicode"
            · rw [if_pos huni] at h; cases h; exact ⟨[], by simp⟩
            · rw [if_neg huni] at h
              by_cases hdt : (e.typ.getD e.tag) == "datetime"
              · rw [if_pos hdt] at h
                cases he : e.text with
                | none => rw [he] at h; cases h
                | some t =>
                  rw [he] at h
                  dsimp only at h
                  cases ht : _str_to_datetime t with
                  | none => rw [ht] at h; cases h
                  | some dt => rw [ht] at h; cases h; exact ⟨[], by simp⟩
              · rw [if_neg hdt] at h
                by_cases hdate : (e.typ.getD e.tag) == "date"
                · rw [if_pos hdate] at h
                  cases he : e.text with
                  | none => rw [he] at h; cases h
                  | some t =>
                    rw [he] at h
                    dsimp only at h
                    cases ht : ((splitOnChar '-' t.toList).map String.mk).mapM parseNat with
                    | none => rw [ht] at h; cases h
                    | some parts =>
                      rw [ht] at h
                      match parts with
                      | [] => cases h
                      | [y] => cases h
                      | [y, m] => cases h
                      | [y, m, d] => cases h; exact ⟨[], by simp⟩
                      | y :: m :: d :: x :: rest => cases h
                · rw [if_neg hdate] at h
                  by_cases hbool : (e.typ.getD e.tag) == "bool"
                  · rw [if_pos hbool] at h
                    cases he : e.text with
                    | none => rw [he] at h; cases h
                    | some t =>
                      rw [he] at h
                      dsimp only at h
                      by_cases ht : t == "True"
                      · rw [if_pos ht] at h; cases h; exact ⟨[], by simp⟩
                      · rw [if_neg ht] at h
                        by_cases hf : t == "False"
                        · rw [if_pos hf] at h; cases h; exact ⟨[], by simp⟩
                        · rw [if_neg hf] at h; cases h
                  · rw [if_neg hbool] at h
                    by_cases href : (e.typ.getD e.tag) == "reference"
                    · rw [if_pos href] at h
                      cases htt : e.toType with
                      | none => rw [htt] at h; cases h
                      | some tt =>
                        rw [htt] at h
                        dsimp only at h
                        cases hrc : resolveClass sch tt with
                        | error er => rw [hrc] at h; cases h
                        | ok cls =>
                          rw [hrc] at h
                          dsimp only at h
                          cases he : e.text with
                          | none => rw [he] at h; cases h
                          | some t =>
                            rw [he] at h
                            dsimp only at h
                            cases ht : parseInt t with
                            | none => rw [ht] at h; cases h
                            | some pk =>
                              rw [ht] at h
                              dsimp only at h
                              by_cases hlen : 2 ≤ (st.store.filter
                                  (fun o => o.cls == cls && o.pk == pk)).length
                              · rw [if_pos hlen] at h; cases h
                              · rw [if_neg hlen] at h
                                match hm : st.store.filter
                                    (fun o => o.cls == cls && o.pk == pk) with
                                | [o] =>
                                  rw [hm] at h; cases h; exact ⟨[], by simp⟩
                                | [] =>
                                  rw [hm] at h; cases h
                                  exact ⟨[.refRetry fieldname cls pk], rfl⟩
                                | o1 :: o2 :: os =>
                                  rw [hm] at h; cases h
                                  exact ⟨[.refRetry fieldname cls pk], rfl⟩
                    · rw [if_neg href] at h; cases h

/-- Once a deferred-reference retry closure sits anywhere in the
postprocess queue, the drain can never succeed: every preceding task
either fails or leaves the closure in place (tasks only append), and
popping the closure itself calls it without its required `obj`
argument — a `TypeError`. -/
theorem drain_refRetry_not_ok (sch : Schema) :
    ∀ (f : Nat) (pre post : List PTask) (store0 : Store)
      (ppn : List (List Empty)) (fn : String) (c : ClassName) (pk : Int)
      (res : DOut × DState),
      deserRun sch f .drain ⟨store0, pre ++ .refRetry fn c pk :: post, ppn⟩
        ≠ .ok res := by
  intro f
  induction f with
  | zero =>
    intro pre post store0 ppn fn c pk res h
    rw [show ∀ st, deserRun sch 0 .drain st = .error .fuelOut from fun _ => rfl] at h
    cases h
  | succ f ih =>
    intro pre post store0 ppn fn c pk res h
    cases pre with
    | nil =>
      simp only [deserRun, List.nil_append] at h
      exact Except.noConfusion h
    | cons t pre' =>
      cases t with
      | refRetry fn2 c2 pk2 =>
        simp only [deserRun, List.cons_append] at h
        exact Except.noConfusion h
      | owned e =>
        simp only [deserRun, List.cons_append] at h
        cases h2 : deserRun sch f (.model e)
            ⟨store0, pre' ++ .refRetry fn c pk :: post, ppn⟩ with
        | error er => rw [h2] at h; cases h
        | ok p =>
          obtain ⟨o2, st1⟩ := p
          rw [h2] at h
          obtain ⟨ts, hts⟩ := deserRun_queue_extends sch f _ _ _ _ (by simp) h2
          obtain ⟨s1, q1, p1⟩ := st1
          simp only at hts
          subst hts
          rw [show (pre' ++ PTask.refRetry fn c pk :: post) ++ ts
              = pre' ++ PTask.refRetry fn c pk :: (post ++ ts) by simp] at h
          exact ih pre' (post ++ ts) s1 p1 fn c pk res h

/-! ### C2/C5: reference resolution through the postprocess queue -/

def idElem (n : Int) : Elem := .mk "id" (some "int") none (some (intToStr n)) []

/-- `m.X` holds a reference field `r` to `m.Y`. -/
def schXY : Schema := [("m.X", [("r", FKind.fk "m.Y")]), ("m.Y", [])]

/-- A document in which `m.X`'s element carries a reference to
`m.Y` pk 1, and `m.Y`'s element appears later in document order. -/
def forwardDoc : Elem :=
  .mk "ModelData" none none none
    [.mk "m.X" none none none
      [idElem 1, .mk "r" (some "reference") (some "m.Y") (some "1") []],
     .mk "m.Y" none none none [idElem 1]]

/-- A document whose reference target pk is never defined anywhere. -/
def danglingDoc : Elem :=
  .mk "ModelData" none none none
    [.mk "m.X" none none none
      [idElem 1, .mk "r" (some "reference") (some "m.Y") (some "1") []]]

/-- C2 evaluation: deserializing `forwardDoc` into an empty store.  At
creation time `m.Y` pk 1 does not exist, so the field is left `None`
and the retry closure is queued — but it is queued on
`context['postprocess']` itself (not on the `pp_needs_obj` entry that
`xml_to_model` wraps with the created instance), so draining the queue
calls it with no arguments and the run dies with a `TypeError` instead
of ending with `X.r` set to `Y`. -/
theorem forward_reference_crashes :
    xml_to_models schXY 100 forwardDoc [] = .error .typeError := rfl

/-- C5: a reference whose target pk is never defined in the document
makes `xml_to_models` fail fatally, never succeed: generically, any
drain whose queue holds a deferred-reference retry closure cannot
return `.ok` (for any fuel, store, or surrounding tasks), and
concretely, deserializing `danglingDoc` into an empty store dies with
the `TypeError` raised when the drain invokes the closure — not by
re-queueing, and not by silently leaving the null field in place. -/
theorem dangling_reference_fatal :
    (∀ (sch : Schema) (f : Nat) (pre post : List PTask) (store0 : Store)
       (ppn : List (List Empty)) (fn : String) (c : ClassName) (pk : Int)
       (res : DOut × DState),
      deserRun sch f .drain ⟨store0, pre ++ .refRetry fn c pk :: post, ppn⟩
        ≠ .ok res)
    ∧ xml_to_models schXY 100 danglingDoc [] = .error .typeError := by
  refine ⟨?_, rfl⟩
  intro sch f pre post store0 ppn fn c pk res
  exact drain_refRetry_not_ok sch f pre post store0 ppn fn c pk res

/-! ### C1: the serialize/deserialize round trip -/

/-- Three classes: `m.B` is owned by `m.A` (fk `a`), and `m.C` holds a
fk `b` to `m.B`. -/
def schABC : Schema :=
  [("m.A", []), ("m.B", [("a", FKind.fk "m.A")]), ("m.C", [("b", FKind.fk "m.B")])]

/-- One instance of each: `b1` owned by `a1`, `c1` referencing `b1`. -/
def storeC1 : Store :=
  [⟨"m.A", 1, []⟩, ⟨"m.B", 1, [("a", .vmodel "m.A" 1)]⟩,
   ⟨"m.C", 1, [("b", .vmodel "m.B" 1)]⟩]

/-- The document `models_to_xml` produces for `storeC1` from roots
`[m.A, m.C]`: `b1` is nested under `a1`'s `___owned`, and `c1`'s `b`
field is a reference marker to `b1`. -/
def docC1 : Elem :=
  .mk "ModelData" none none none
    [.mk "m.A" none none none
      [idElem 1,
       .mk "___owned" none none none
         [.mk "m.B" none none none
           [idElem 1, .mk "a" (some "reference") (some "m.A") (some "1") []]]],
     .mk "m.C" none none none
       [idElem 1, .mk "b" (some "reference") (some "m.B") (some "1") []]]

/-- C1 evaluation: the round trip crashes on `storeC1`.  Serialization
succeeds (producing `docC1`), but deserializing `docC1` into an emptied
store fails: `c1` is a top-level element whose reference to `m.B` pk 1
is resolved *before* the queued creation of the owned `b1` runs, so the
retry closure is queued and the drain's zero-argument call of it raises
`TypeError` — instead of repopulating the store with the original
graph. -/
theorem round_trip_crashes_on_reference_to_owned :
    models_to_xml schABC storeC1 ["m.A", "m.C"] 30 = .ok docC1
    ∧ xml_to_models schABC 100 docC1 [] = .error .typeError :=
  ⟨rfl, rfl⟩

/-! ### C10: primary keys survive the dump/reload cycle -/

/-- The field loop on `("id", vint pk) :: rest` puts the serialized
primary key element first. -/
theorem serRun_fields_id_head (sch : Schema) (store : Store) :
    ∀ (f : Nat) (pk : Int) (kvs : List (String × Value)) (ctx : SCtx)
      (out : SOut) (ctx' : SCtx),
      serRun sch store f (.fieldsJ (("id", .vint pk) :: kvs)) ctx = .ok (out, ctx') →
      ∃ rest, out = .many (Elem.mk "id" (some "int") none (some (intToStr pk)) [] :: rest) := by
  intro f pk kvs ctx out ctx' h
  match f with
  | 0 => exact Except.noConfusion h
  | f + 1 =>
    rw [serRun_fieldsJ_cons] at h
    match f with
    | 0 =>
      rw [serRun_zero] at h
      exact Except.noConfusion h
    | f2 + 1 =>
      rw [serRun_fieldJ_vint] at h
      dsimp only at h
      cases h2 : serRun sch store (f2 + 1) (.fieldsJ kvs) ctx with
      | error er => rw [h2] at h; exact Except.noConfusion h
      | ok p =>
        obtain ⟨o2, ctx2⟩ := p
        rw [h2] at h
        cases o2 with
        | single e? => exact Except.noConfusion h
        | many es =>
          cases h
          exact ⟨es, rfl⟩

/-- The instance serialized for the C10 witness. -/
def elemB10 : Elem :=
  .mk "m.B" none none none
    [.mk "id" (some "int") none (some "1") [],
     .mk "a" (some "reference") (some "m.A") (some "1") []]

def elemA10 : Elem :=
  .mk "m.A" none none none
    [.mk "id" (some "int") none (some "1") [],
     .mk "name" (some "str") none (some "hi") [],
     .mk "___owned" none none none [elemB10]]

/-- A store with one owner (`m.A` pk 1) and one owned instance
(`m.B` pk 1), for the successful round trip. -/
def storeRT : Store :=
  [⟨"m.A", 1, [("name", .vstr "hi")]⟩, ⟨"m.B", 1, [("a", .vmodel "m.A" 1)]⟩]

/-- `models_to_xml` of `storeRT` from root `[m.A]`. -/
def docRT : Elem := .mk "ModelData" none none none [elemA10]

/-- C10: primary keys are preserved across a dump/reload cycle:
(1) whenever `_model_to_xml` serializes a not-yet-touched instance, the
emitted element's first child is the ordinary integer field
`<id type='int'>pk</id>`;
(2) `_xml_to_field` decodes such a child back to the integer pk, which
therefore lands in the attribute mapping under `id`;
(3) `objects.create` with an integer `id` attribute makes it the new
instance's primary key;
(4) concretely, serializing `storeRT` and reloading the document into
an emptied store reproduces the store exactly — same primary keys —
which is what lets the reference marker inside `docRT` (carrying the
pre-delete pk of `m.A`) resolve after the delete-and-reload cycle. -/
theorem primary_keys_preserved :
    (∀ (sch : Schema) (store : Store) (f : Nat) (obj : Obj)
       (name : Option String) (ctx : SCtx) (out : SOut) (ctx' : SCtx),
      obj.id ∉ ctx.touched →
      serRun sch store f (.model obj name) ctx = .ok (out, ctx') →
      ∃ e rest, out = .single (some e) ∧
        e.children = Elem.mk "id" (some "int") none (some (intToStr obj.pk)) [] :: rest)
    ∧ (∀ (sch : Schema) (f : Nat) (st : DState) (fn t : String) (n : Int),
      parseInt t = some n →
      deserRun sch (f + 1) (.fieldJ (.mk "id" (some "int") none (some t) []) fn) st
        = .ok (.val (.vint n), st))
    ∧ (∀ (cls : ClassName) (d : List (String × Value)) (store : Store) (n : Int),
      d.lookup "id" = some (.vint n) → (createObj cls d store).pk = n)
    ∧ models_to_xml schAB storeRT ["m.A"] 30 = .ok docRT
    ∧ xml_to_models schAB 100 docRT [] = .ok storeRT := by
  refine ⟨?_, ?_, ?_, rfl, rfl⟩
  · intro sch store f obj name ctx out ctx' hmem h
    match f with
    | 0 => exact Except.noConfusion h
    | f + 1 =>
      rw [serRun_model_eq] at h
      rw [if_neg hmem] at h
      dsimp only at h
      cases h2 : serRun sch store f (.fieldsJ (("id", .vint obj.pk) :: obj.fields))
          { ctx with touched := obj.id :: ctx.touched } with
      | error er => rw [h2] at h; exact Except.noConfusion h
      | ok p =>
        obtain ⟨o2, ctx2⟩ := p
        rw [h2] at h
        obtain ⟨rest, hrest⟩ := serRun_fields_id_head sch store f obj.pk obj.fields
          _ _ _ h2
        subst hrest
        dsimp only at h
        cases h3 : serRun sch store f (.ownedRels obj (owned_models sch obj.cls)) ctx2 with
        | error er => rw [h3] at h; exact Except.noConfusion h
        | ok p3 =>
          obtain ⟨o3, ctx3⟩ := p3
          rw [h3] at h
          cases o3 with
          | single e? => exact Except.noConfusion h
          | many ownedEls =>
            cases name with
            | none =>
              cases h
              exact ⟨_, _, rfl, rfl⟩
            | some k =>
              cases h
              exact ⟨_, _, rfl, rfl⟩
  · intro sch f st fn t n h
    have hstep : deserRun sch (f + 1)
        (.fieldJ (.mk "id" (some "int") none (some t) []) fn) st =
        match parseInt t with
        | some m => .ok (.val (.vint m), st)
        | none => .error .valueError := rfl
    rw [hstep, h]
  · intro cls d store n h
    simp only [createObj, h]

/-- Witness for C10, discharging each hypothesis at concrete inputs:
the serializer's output element for `m.A` pk 1 of `storeRT` starts with
its id child; `<id type='int'>7</id>` decodes to 7; and create with
`id = 7` yields pk 7. -/
theorem primary_keys_preserved_witness :
    (∃ e rest, SOut.single (some elemA10) = .single (some e) ∧
      e.children = Elem.mk "id" (some "int") none (some (intToStr (1 : Int))) [] :: rest)
    ∧ deserRun [] 1 (.fieldJ (.mk "id" (some "int") none (some "7") []) "id")
        ⟨[], [], []⟩ = .ok (.val (.vint 7), ⟨[], [], []⟩)
    ∧ (createObj "m.A" [("id", .vint 7)] []).pk = 7 :=
  ⟨primary_keys_preserved.1 schAB storeRT 30 ⟨"m.A", 1, [("name", .vstr "hi")]⟩
      none ⟨[], [("m.A", none)], []⟩
      (.single (some elemA10))
      ⟨[("m.B", 1), ("m.A", 1)], [("m.B", some "m.A"), ("m.A", none)], []⟩
      (by decide) rfl,
   primary_keys_preserved.2.1 [] 0 ⟨[], [], []⟩ "id" "7" 7 rfl,
   primary_keys_preserved.2.2.1 "m.A" [("id", .vint 7)] [] 7 rfl⟩

/-! ### C7: at-most-once emission, reference markers, termination -/

/-- Does this element serialize instance `(c, pk)` in full?  A full
instance element carries `type = c` (when nested as a field) or no
`type` attribute and tag `c` (top level / owned), is not a reference
marker, and its `id` child holds the instance's primary key text. -/
def isFullFor (c : ClassName) (pk : Int) (e : Elem) : Bool :=
  !(e.typ == some "reference") &&
  (e.typ == some c || (e.typ == none && e.tag == c)) &&
  (match e.children.find? (fun ch => ch.tag == "id") with
   | some ch => ch.text == some (intToStr pk)
   | none => false)

mutual

/-- The number of elements in this tree that serialize `(c, pk)` in
full. -/
def countFull (c : ClassName) (pk : Int) : Elem → Nat
  | .mk tag ty tt tx children =>
    (if isFullFor c pk (.mk tag ty tt tx children) then 1 else 0)
      + countFullL c pk children

def countFullL (c : ClassName) (pk : Int) : List Elem → Nat
  | [] => 0
  | e :: es => countFull c pk e + countFullL c pk es

end

theorem countFullL_append (c : ClassName) (pk : Int) (a b : List Elem) :
    countFullL c pk (a ++ b) = countFullL c pk a + countFullL c pk b := by
  induction a with
  | nil => simp [countFullL]
  | cons e es ih => simp [countFullL, ih]; omega

/-- The elements a serializer job emitted. -/
def emitted : SOut → List Elem
  | .single none => []
  | .single (some e) => [e]
  | .many es => es

/-- The store-membership conditions a serializer job needs: a `.model`
job's instance and an `.ownedObjs` job's instances come from the store
(as they do at every internal call site). -/
def SJobOK (store : Store) : SJob → Prop
  | .model obj _ => obj ∈ store
  | .ownedObjs objs => ∀ o ∈ objs, o ∈ store
  | _ => True

/-- Chaining two emission windows: with `t0 ⊆ t1 ⊆ t2`, being newly
touched across the whole window is being newly touched in exactly one
half. -/
theorem count_if_chain (p0 p1 p2 : Prop) [Decidable p0] [Decidable p1]
    [Decidable p2] (h01 : p0 → p1) (h12 : p1 → p2) :
    ((if p1 ∧ ¬p0 then 1 else 0) + (if p2 ∧ ¬p1 then 1 else 0) : Nat)
      = if p2 ∧ ¬p0 then 1 else 0 := by
  by_cases h0 : p0
  · have h1 := h01 h0
    have h2 := h12 h1
    simp [h0, h1, h2]
  · by_cases h1 : p1
    · have h2 := h12 h1
      simp [h0, h1, h2]
    · by_cases h2 : p2 <;> simp [h0, h1, h2]

/-- Touched-set monotonicity of the serializer: a successful job only
grows the touched set, every new entry is a store identity (under the
job's store-membership conditions), and the postprocess queue is left
alone. -/
theorem serRun_mono (sch : Schema) (store : Store) :
    ∀ (f : Nat) (j : SJob) (ctx : SCtx) (out : SOut) (ctx' : SCtx),
      serRun sch store f j ctx = .ok (out, ctx') →
      (∀ x, x ∈ ctx.touched → x ∈ ctx'.touched)
      ∧ (SJobOK store j →
          ∀ x, x ∈ ctx'.touched → x ∈ ctx.touched ∨ x ∈ storeIds store)
      ∧ ctx'.postprocess = ctx.postprocess := by
  intro f
  induction f with
  | zero =>
    intro j ctx out ctx' h
    exact Except.noConfusion h
  | succ f ih =>
    intro j ctx out ctx' h
    cases j with
    | model obj name =>
      rw [serRun_model_eq] at h
      by_cases hmem : obj.id ∈ ctx.touched
      · rw [if_pos hmem] at h
        cases name with
        | none => cases h; exact ⟨fun x hx => hx, fun _ x hx => .inl hx, rfl⟩
        | some k => cases h; exact ⟨fun x hx => hx, fun _ x hx => .inl hx, rfl⟩
      · rw [if_neg hmem] at h
        dsimp only at h
        cases h2 : serRun sch store f (.fieldsJ (("id", .vint obj.pk) :: obj.fields))
            { ctx with touched := obj.id :: ctx.touched } with
        | error er => rw [h2] at h; exact Except.noConfusion h
        | ok p =>
          obtain ⟨o2, ctx2⟩ := p
          rw [h2] at h
          cases o2 with
          | single e? => exact Except.noConfusion h
          | many fieldEls =>
            dsimp only at h
            cases h3 : serRun sch store f
                (.ownedRels obj (owned_models sch obj.cls)) ctx2 with
            | error er => rw [h3] at h; exact Except.noConfusion h
            | ok p3 =>
              obtain ⟨o3, ctx3⟩ := p3
              rw [h3] at h
              cases o3 with
              | single e? => exact Except.noConfusion h
              | many ownedEls =>
                obtain ⟨m2a, m2b, m2c⟩ := ih _ _ _ _ h2
                obtain ⟨m3a, m3b, m3c⟩ := ih _ _ _ _ h3
                have hctx3 : ctx' = ctx3 := by
                  cases name with
                  | none => cases h; rfl
                  | some k => cases h; rfl
                subst hctx3
                refine ⟨?_, ?_, ?_⟩
                · intro x hx
                  exact m3a x (m2a x (by simp [hx]))
                · intro hok x hx
                  rcases m3b trivial x hx with hx2 | hs
                  · rcases m2b trivial x hx2 with hx1 | hs
                    · rcases List.mem_cons.mp hx1 with hxe | hxc
                      · subst hxe
                        exact .inr (List.mem_map_of_mem Obj.id hok)
                      · exact .inl hxc
                    · exact .inr hs
                  · exact .inr hs
                · rw [m3c, m2c]
    | fieldsJ kvs =>
      cases kvs with
      | nil =>
        rw [serRun_fieldsJ_nil] at h
        cases h
        exact ⟨fun x hx => hx, fun _ x hx => .inl hx, rfl⟩
      | cons kv kvs' =>
        obtain ⟨k, v⟩ := kv
        rw [serRun_fieldsJ_cons] at h
        cases h2 : serRun sch store f (.fieldJ k v) ctx with
        | error er => rw [h2] at h; exact Except.noConfusion h
        | ok p =>
          obtain ⟨o2, ctx1⟩ := p
          rw [h2] at h
          cases o2 with
          | many es => exact Except.noConfusion h
          | single e? =>
            dsimp only at h
            cases h3 : serRun sch store f (.fieldsJ kvs') ctx1 with
            | error er => rw [h3] at h; exact Except.noConfusion h
            | ok p3 =>
              obtain ⟨o3, ctx2⟩ := p3
              rw [h3] at h
              cases o3 with
              | single e2? => exact Except.noConfusion h
              | many es =>
                cases h
                obtain ⟨m2a, m2b, m2c⟩ := ih _ _ _ _ h2
                obtain ⟨m3a, m3b, m3c⟩ := ih _ _ _ _ h3
                refine ⟨fun x hx => m3a x (m2a x hx), ?_, by rw [m3c, m2c]⟩
                intro _ x hx
                rcases m3b trivial x hx with hx1 | hs
                · exact m2b trivial x hx1
                · exact .inr hs
    | fieldJ k v =>
      cases v with
      | vmodel c p =>
        rw [serRun_fieldJ_vmodel] at h
        cases hf : store.find? (fun o2 => o2.cls == c && o2.pk == p) with
        | none => rw [hf] at h; exact Except.noConfusion h
        | some o2 =>
          rw [hf] at h
          obtain ⟨ma, mb, mc⟩ := ih _ _ _ _ h
          refine ⟨ma, fun _ => mb ?_, mc⟩
          exact List.mem_of_find?_eq_some hf
      | vint n => cases h; exact ⟨fun x hx => hx, fun _ x hx => .inl hx, rfl⟩
      | vstr s => cases h; exact ⟨fun x hx => hx, fun _ x hx => .inl hx, rfl⟩
      | vuni s => cases h; exact ⟨fun x hx => hx, fun _ x hx => .inl hx, rfl⟩
      | vbool b => cases h; exact ⟨fun x hx => hx, fun _ x hx => .inl hx, rfl⟩
      | vdate y m d => cases h; exact ⟨fun x hx => hx, fun _ x hx => .inl hx, rfl⟩
      | vdatetime dt => cases h; exact ⟨fun x hx => hx, fun _ x hx => .inl hx, rfl⟩
      | vnone => exact Except.noConfusion h
    | ownedRels obj rels =>
      cases rels with
      | nil =>
        rw [serRun_ownedRels_nil] at h
        cases h
        exact ⟨fun x hx => hx, fun _ x hx => .inl hx, rfl⟩
      | cons r rels' =>
        obtain ⟨c, fkname⟩ := r
        rw [serRun_ownedRels_cons] at h
        cases hl : ctx.owned_by.lookup c with
        | some v =>
          rw [hl] at h
          dsimp only at h
          rw [show objNeOwnedBy obj v = true from rfl] at h
          simp only [if_true] at h
          obtain ⟨ma, mb, mc⟩ := ih _ _ _ _ h
          exact ⟨ma, fun _ => mb trivial, mc⟩
        | none =>
          rw [hl] at h
          dsimp only at h
          cases h2 : serRun sch store f (.ownedObjs (store.filter (fun o2 =>
              o2.cls == c &&
              (match o2.fields.lookup fkname with
               | some (.vmodel _ p) => p == obj.pk
               | _ => false))))
              { ctx with owned_by := (c, some obj.cls) :: ctx.owned_by } with
          | error er => rw [h2] at h; exact Except.noConfusion h
          | ok p =>
            obtain ⟨o2, ctx2⟩ := p
            rw [h2] at h
            cases o2 with
            | single e? => exact Except.noConfusion h
            | many es =>
              dsimp only at h
              cases h3 : serRun sch store f (.ownedRels obj rels') ctx2 with
              | error er => rw [h3] at h; exact Except.noConfusion h
              | ok p3 =>
                obtain ⟨o3, ctx3⟩ := p3
                rw [h3] at h
                cases o3 with
                | single e2? => exact Except.noConfusion h
                | many es2 =>
                  cases h
                  obtain ⟨m2a, m2b, m2c⟩ := ih _ _ _ _ h2
                  obtain ⟨m3a, m3b, m3c⟩ := ih _ _ _ _ h3
                  refine ⟨fun x hx => m3a x (m2a x hx), ?_, by rw [m3c, m2c]⟩
                  intro _ x hx
                  rcases m3b trivial x hx with hx2 | hs
                  · rcases m2b (fun o ho => (List.mem_filter.mp ho).1) x hx2 with hx1 | hs
                    · exact .inl hx1
                    · exact .inr hs
                  · exact .inr hs
    | ownedObjs objs =>
      cases objs with
      | nil =>
        rw [serRun_ownedObjs_nil] at h
        cases h
        exact ⟨fun x hx => hx, fun _ x hx => .inl hx, rfl⟩
      | cons o os =>
        rw [serRun_ownedObjs_cons] at h
        cases h2 : serRun sch store f (.model o none) ctx with
        | error er => rw [h2] at h; exact Except.noConfusion h
        | ok p =>
          obtain ⟨o2, ctx1⟩ := p
          rw [h2] at h
          cases o2 with
          | many es => exact Except.noConfusion h
          | single e? =>
            dsimp only at h
            cases h3 : serRun sch store f (.ownedObjs os) ctx1 with
            | error er => rw [h3] at h; exact Except.noConfusion h
            | ok p3 =>
              obtain ⟨o3, ctx2⟩ := p3
              rw [h3] at h
              cases o3 with
              | single e2? => exact Except.noConfusion h
              | many es =>
                cases h
                obtain ⟨m2a, m2b, m2c⟩ := ih _ _ _ _ h2
                obtain ⟨m3a, m3b, m3c⟩ := ih _ _ _ _ h3
                refine ⟨fun x hx => m3a x (m2a x hx), ?_, by rw [m3c, m2c]⟩
                intro hok x hx
                rcases m3b (fun o2 ho2 => hok o2 (List.mem_cons_of_mem o ho2)) x hx with
                  hx1 | hs
                · exact m2b (hok o (List.mem_cons_self o os)) x hx1
                · exact .inr hs

/-- An element with no children is never a full instance element (it
has no `id` child). -/
theorem countFull_childless (c : ClassName) (pk : Int) (tag : String)
    (ty tt tx : Option String) :
    countFull c pk (.mk tag ty tt tx []) = 0 := by
  simp [countFull, countFullL, isFullFor, Elem.children, List.find?]

/-- A string without a dot differs from a dotted class name. -/
theorem ne_of_dotless {c s : String} (hdot : strContains c '.' = true)
    (hs : strContains s '.' = false) : s ≠ c := by
  intro h
  subst h
  rw [hdot] at hs
  cases hs

/-- The `___owned` wrapper is not a full instance element of any dotted
class. -/
theorem countFull_wrapper (c : ClassName) (pk : Int)
    (hdot : strContains c '.' = true) (cs : List Elem) :
    countFull c pk (.mk "___owned" none none none cs) = countFullL c pk cs := by
  have hne : ("___owned" : String) ≠ c := ne_of_dotless hdot (by decide)
  simp [countFull, isFullFor, Elem.typ, Elem.tag, hne]

/-- A successful `_model_to_xml` leaves the instance in the touched
set. -/
theorem serRun_model_touched (sch : Schema) (store : Store) :
    ∀ (f : Nat) (obj : Obj) (name : Option String) (ctx : SCtx)
      (out : SOut) (ctx' : SCtx),
      serRun sch store f (.model obj name) ctx = .ok (out, ctx') →
      obj.id ∈ ctx'.touched := by
  intro f obj name ctx out ctx' h
  match f with
  | 0 => exact Except.noConfusion h
  | f + 1 =>
    rw [serRun_model_eq] at h
    by_cases hmem : obj.id ∈ ctx.touched
    · rw [if_pos hmem] at h
      cases name with
      | none => cases h; exact hmem
      | some k => cases h; exact hmem
    · rw [if_neg hmem] at h
      dsimp only at h
      cases h2 : serRun sch store f (.fieldsJ (("id", .vint obj.pk) :: obj.fields))
          { ctx with touched := obj.id :: ctx.touched } with
      | error er => rw [h2] at h; exact Except.noConfusion h
      | ok p =>
        obtain ⟨o2, ctx2⟩ := p
        rw [h2] at h
        cases o2 with
        | single e? => exact Except.noConfusion h
        | many fieldEls =>
          dsimp only at h
          cases h3 : serRun sch store f
              (.ownedRels obj (owned_models sch obj.cls)) ctx2 with
          | error er => rw [h3] at h; exact Except.noConfusion h
          | ok p3 =>
            obtain ⟨o3, ctx3⟩ := p3
            rw [h3] at h
            cases o3 with
            | single e? => exact Except.noConfusion h
            | many ownedEls =>
              have h2m := (serRun_mono sch store f _ _ _ _ h2).1
              have h3m := (serRun_mono sch store f _ _ _ _ h3).1
              have : obj.id ∈ ctx3.touched :=
                h3m _ (h2m _ (List.mem_cons_self _ _))
              cases name with
              | none => cases h; exact this
              | some k => cases h; exact this

/-- Primary keys of same-class store instances have distinct decimal
texts when they are distinct (a finite, decidable rendering of the
injectivity of integer printing, checked per store). -/
def distinctPks (store : Store) : Prop :=
  ∀ o1 ∈ store, ∀ o2 ∈ store, o1.cls = o2.cls →
    intToStr o1.pk = intToStr o2.pk → o1.pk = o2.pk

instance (store : Store) : Decidable (distinctPks store) := by
  unfold distinctPks
  infer_instance

/-- Evaluating `isFullFor` on an instance element as the serializer
builds it: tag/`type` from the class (bare or field-nested), and the
`id` child first. -/
theorem isFullFor_built (c : ClassName) (pk : Int)
    (hdot : strContains c '.' = true) (obj : Obj) (tg : String)
    (ty : Option String)
    (hty : ty = none ∧ tg = obj.cls ∨ ty = some obj.cls)
    (rest tail : List Elem) :
    isFullFor c pk (.mk tg ty none none
      ((Elem.mk "id" (some "int") none (some (intToStr obj.pk)) [] :: rest) ++ tail))
      = ((c == obj.cls) && (intToStr obj.pk == intToStr pk)) := by
  have hfind : (((Elem.mk "id" (some "int") none (some (intToStr obj.pk)) [] :: rest)
      ++ tail).find? (fun ch => ch.tag == "id"))
      = some (Elem.mk "id" (some "int") none (some (intToStr obj.pk)) []) := by
    rw [List.cons_append]
    exact List.find?_cons_of_pos _ (by rfl)
  rcases hty with ⟨hty1, hty2⟩ | hty1
  · subst hty1; subst hty2
    simp only [isFullFor, Elem.typ, Elem.tag, Elem.children, hfind, Elem.text]
    by_cases hc : c = obj.cls
    · subst hc
      simp
    · have h1 : (obj.cls == c) = false := beq_eq_false_iff_ne.mpr (Ne.symm hc)
      have h2 : (c == obj.cls) = false := beq_eq_false_iff_ne.mpr hc
      simp [h1, h2]
  · subst hty1
    simp only [isFullFor, Elem.typ, Elem.tag, Elem.children, hfind, Elem.text]
    by_cases hc : c = obj.cls
    · subst hc
      have hrne : (obj.cls == "reference") = false :=
        beq_eq_false_iff_ne.mpr (Ne.symm (ne_of_dotless hdot (by decide)))
      simp [hrne]
    · have h1 : (obj.cls == c) = false := beq_eq_false_iff_ne.mpr (Ne.symm hc)
      have h2 : (c == obj.cls) = false := beq_eq_false_iff_ne.mpr hc
      simp [h1, h2]

/-- The central counting invariant of the serializer: a successful job
emits, for every store identity `(c, pk)` of a dotted class, exactly
one full instance element if the job newly touched that identity, and
none otherwise. -/
theorem serRun_count (sch : Schema) (store : Store) (hd : distinctPks store) :
    ∀ (f : Nat) (j : SJob) (ctx : SCtx) (out : SOut) (ctx' : SCtx),
      serRun sch store f j ctx = .ok (out, ctx') → SJobOK store j →
      ∀ (c : ClassName) (pk : Int), strContains c '.' = true →
        (c, pk) ∈ storeIds store →
        countFullL c pk (emitted out)
          = if (c, pk) ∈ ctx'.touched ∧ (c, pk) ∉ ctx.touched then 1 else 0 := by
  intro f
  induction f with
  | zero =>
    intro j ctx out ctx' h
    exact Except.noConfusion h
  | succ f ih =>
    intro j ctx out ctx' h hok c pk hdot hcpk
    cases j with
    | model obj name =>
      rw [serRun_model_eq] at h
      by_cases hmem : obj.id ∈ ctx.touched
      · rw [if_pos hmem] at h
        cases name with
        | none =>
          cases h
          simp [emitted, countFullL]
        | some k =>
          cases h
          simp [emitted, countFullL, refMarker, countFull_childless]
      · rw [if_neg hmem] at h
        dsimp only at h
        cases h2 : serRun sch store f (.fieldsJ (("id", .vint obj.pk) :: obj.fields))
            { ctx with touched := obj.id :: ctx.touched } with
        | error er => rw [h2] at h; exact Except.noConfusion h
        | ok p =>
          obtain ⟨o2, ctx2⟩ := p
          rw [h2] at h
          cases o2 with
          | single e? => exact Except.noConfusion h
          | many fieldEls =>
            dsimp only at h
            cases h3 : serRun sch store f
                (.ownedRels obj (owned_models sch obj.cls)) ctx2 with
            | error er => rw [h3] at h; exact Except.noConfusion h
            | ok p3 =>
              obtain ⟨o3, ctx3⟩ := p3
              rw [h3] at h
              cases o3 with
              | single e? => exact Except.noConfusion h
              | many ownedEls =>
                have hcF := ih _ _ _ _ h2 trivial c pk hdot hcpk
                have hcO := ih _ _ _ _ h3 trivial c pk hdot hcpk
                have hm2 := (serRun_mono sch store f _ _ _ _ h2).1
                have hm3 := (serRun_mono sch store f _ _ _ _ h3).1
                have hobj1 : obj.id ∈
                    ({ ctx with touched := obj.id :: ctx.touched } : SCtx).touched :=
                  List.mem_cons_self _ _
                have hobj2 : obj.id ∈ ctx2.touched := hm2 _ hobj1
                have hobj3 : obj.id ∈ ctx3.touched := hm3 _ hobj2
                obtain ⟨rest, hrest⟩ := serRun_fields_id_head sch store f obj.pk
                  obj.fields _ _ _ h2
                cases hrest
                dsimp only at hcF hm2 hobj1
                have hwrap : countFullL c pk
                    (if ownedEls.isEmpty then []
                     else [Elem.mk "___owned" none none none ownedEls])
                    = countFullL c pk ownedEls := by
                  cases ownedEls with
                  | nil => simp [countFullL]
                  | cons w ws =>
                    rw [show (if (w :: ws).isEmpty then ([] : List Elem)
                        else [Elem.mk "___owned" none none none (w :: ws)])
                        = [Elem.mk "___owned" none none none (w :: ws)] from rfl]
                    rw [show countFullL c pk [Elem.mk "___owned" none none none (w :: ws)]
                        = countFull c pk (.mk "___owned" none none none (w :: ws)) + 0
                        from rfl]
                    rw [countFull_wrapper c pk hdot, Nat.add_zero]
                -- the element count, for both name shapes
                have hmain : ∀ (tg : String) (ty : Option String),
                    (ty = none ∧ tg = obj.cls ∨ ty = some obj.cls) →
                    countFullL c pk (emitted (.single (some (Elem.mk tg ty none none
                      ((Elem.mk "id" (some "int") none (some (intToStr obj.pk)) [] :: rest)
                        ++ (if ownedEls.isEmpty then []
                            else [Elem.mk "___owned" none none none ownedEls]))))))
                    = if (c, pk) ∈ ctx3.touched ∧ (c, pk) ∉ ctx.touched then 1 else 0 := by
                  intro tg ty hty
                  show countFull c pk _ + 0 = _
                  rw [Nat.add_zero]
                  show (if isFullFor c pk _ then 1 else 0) + countFullL c pk _ = _
                  rw [isFullFor_built c pk hdot obj tg ty hty rest _]
                  rw [show countFullL c pk
                      ((Elem.mk "id" (some "int") none (some (intToStr obj.pk)) [] :: rest)
                        ++ (if ownedEls.isEmpty then []
                            else [Elem.mk "___owned" none none none ownedEls]))
                      = countFullL c pk
                          (Elem.mk "id" (some "int") none (some (intToStr obj.pk)) [] :: rest)
                        + countFullL c pk
                          (if ownedEls.isEmpty then []
                           else [Elem.mk "___owned" none none none ownedEls])
                      from countFullL_append c pk _ _]
                  rw [hwrap]
                  rw [show countFullL c pk
                      (Elem.mk "id" (some "int") none (some (intToStr obj.pk)) [] :: rest)
                      = countFullL c pk (emitted (.many
                          (Elem.mk "id" (some "int") none (some (intToStr obj.pk)) [] :: rest)))
                      from rfl]
                  rw [show countFullL c pk ownedEls
                      = countFullL c pk (emitted (.many ownedEls)) from rfl]
                  rw [hcF, hcO]
                  by_cases hid : (c, pk) = obj.id
                  · -- the instance itself: the new full element is this one
                    have hbool : ((c == obj.cls) && (intToStr obj.pk == intToStr pk))
                        = true := by
                      have hc : c = obj.cls := congrArg Prod.fst hid
                      have hpk : pk = obj.pk := congrArg Prod.snd hid
                      rw [hc, hpk]
                      simp
                    rw [hbool, if_pos rfl]
                    have hin1 : (c, pk) ∈ obj.id :: ctx.touched := by
                      rw [hid]
                      exact hobj1
                    rw [if_neg (by rintro ⟨-, hno⟩; exact hno hin1)]
                    rw [if_neg (by rintro ⟨-, hno⟩; exact hno (hm2 _ hin1))]
                    rw [if_pos ⟨by rw [hid]; exact hobj3, by rw [hid]; exact hmem⟩]
                  · -- any other identity: never this element, chain the halves
                    have hbool : ((c == obj.cls) && (intToStr obj.pk == intToStr pk))
                        = false := by
                      by_cases hc : c = obj.cls
                      · have hpkne : pk ≠ obj.pk := by
                          intro hpk
                          exact hid (by rw [hc, hpk]; rfl)
                        obtain ⟨o1, ho1, hido1⟩ := List.mem_map.mp hcpk
                        have ho1c : o1.cls = c := congrArg Prod.fst hido1
                        have ho1pk : o1.pk = pk := congrArg Prod.snd hido1
                        have hsne : intToStr obj.pk ≠ intToStr pk := by
                          intro hstr
                          apply hpkne
                          rw [← ho1pk] at hstr ⊢
                          exact (hd obj hok o1 ho1 (by rw [ho1c, hc]) hstr).symm
                        simp [beq_eq_false_iff_ne.mpr hsne]
                      · simp [beq_eq_false_iff_ne.mpr hc]
                    rw [hbool, if_neg Bool.false_ne_true, Nat.zero_add]
                    have hmemiff : ((c, pk) ∈ obj.id :: ctx.touched)
                        ↔ (c, pk) ∈ ctx.touched := by
                      rw [List.mem_cons]
                      exact ⟨fun h => h.resolve_left hid, fun h => .inr h⟩
                    rw [count_if_chain ((c, pk) ∈ obj.id :: ctx.touched)
                      ((c, pk) ∈ ctx2.touched) ((c, pk) ∈ ctx3.touched)
                      (hm2 (c, pk)) (hm3 (c, pk))]
                    by_cases h3in : (c, pk) ∈ ctx3.touched
                    · by_cases hcin : (c, pk) ∈ ctx.touched
                      · rw [if_neg (fun hcon => hcon.2 (hmemiff.mpr hcin)),
                          if_neg (fun hcon => hcon.2 hcin)]
                      · rw [if_pos ⟨h3in, fun hc1 => hcin (hmemiff.mp hc1)⟩,
                          if_pos ⟨h3in, hcin⟩]
                    · rw [if_neg (fun hcon => h3in hcon.1),
                        if_neg (fun hcon => h3in hcon.1)]
                cases name with
                | none =>
                  cases h
                  exact hmain obj.cls none (.inl ⟨rfl, rfl⟩)
                | some k =>
                  cases h
                  exact hmain k (some obj.cls) (.inr rfl)
    | fieldsJ kvs =>
      cases kvs with
      | nil =>
        rw [serRun_fieldsJ_nil] at h
        cases h
        simp [emitted, countFullL]
      | cons kv kvs' =>
        obtain ⟨k, v⟩ := kv
        rw [serRun_fieldsJ_cons] at h
        cases h2 : serRun sch store f (.fieldJ k v) ctx with
        | error er => rw [h2] at h; exact Except.noConfusion h
        | ok p =>
          obtain ⟨o2, ctx1⟩ := p
          rw [h2] at h
          cases o2 with
          | many es => exact Except.noConfusion h
          | single e? =>
            dsimp only at h
            cases h3 : serRun sch store f (.fieldsJ kvs') ctx1 with
            | error er => rw [h3] at h; exact Except.noConfusion h
            | ok p3 =>
              obtain ⟨o3, ctx2⟩ := p3
              rw [h3] at h
              cases o3 with
              | single e2? => exact Except.noConfusion h
              | many es =>
                cases h
                have hcH := ih _ _ _ _ h2 trivial c pk hdot hcpk
                have hcT := ih _ _ _ _ h3 trivial c pk hdot hcpk
                have hm2 := (serRun_mono sch store f _ _ _ _ h2).1
                have hm3 := (serRun_mono sch store f _ _ _ _ h3).1
                show countFullL c pk (e?.toList ++ es) = _
                rw [countFullL_append]
                rw [show countFullL c pk e?.toList
                    = countFullL c pk (emitted (.single e?)) by cases e? <;> rfl]
                rw [show countFullL c pk es
                    = countFullL c pk (emitted (.many es)) from rfl]
                rw [hcH, hcT]
                exact count_if_chain _ _ _ (hm2 (c, pk)) (hm3 (c, pk))
    | fieldJ k v =>
      cases v with
      | vmodel cv p =>
        rw [serRun_fieldJ_vmodel] at h
        cases hf : store.find? (fun o2 => o2.cls == cv && o2.pk == p) with
        | none => rw [hf] at h; exact Except.noConfusion h
        | some o2 =>
          rw [hf] at h
          exact ih _ _ _ _ h (List.mem_of_find?_eq_some hf) c pk hdot hcpk
      | vint n =>
        cases h; simp [emitted, countFullL, countFull_childless]
      | vstr s =>
        cases h; simp [emitted, countFullL, countFull_childless]
      | vuni s =>
        cases h; simp [emitted, countFullL, countFull_childless]
      | vbool b =>
        cases h; simp [emitted, countFullL, countFull_childless]
      | vdate y m d =>
        cases h; simp [emitted, countFullL, countFull_childless]
      | vdatetime dt =>
        cases h; simp [emitted, countFullL, countFull_childless]
      | vnone => exact Except.noConfusion h
    | ownedRels obj rels =>
      cases rels with
      | nil =>
        rw [serRun_ownedRels_nil] at h
        cases h
        simp [emitted, countFullL]
      | cons r rels' =>
        obtain ⟨cr, fkname⟩ := r
        rw [serRun_ownedRels_cons] at h
        cases hl : ctx.owned_by.lookup cr with
        | some v =>
          rw [hl] at h
          dsimp only at h
          rw [show objNeOwnedBy obj v = true from rfl] at h
          simp only [if_true] at h
          exact ih _ _ _ _ h trivial c pk hdot hcpk
        | none =>
          rw [hl] at h
          dsimp only at h
          cases h2 : serRun sch store f (.ownedObjs (store.filter (fun o2 =>
              o2.cls == cr &&
              (match o2.fields.lookup fkname with
               | some (.vmodel _ p) => p == obj.pk
               | _ => false))))
              { ctx with owned_by := (cr, some obj.cls) :: ctx.owned_by } with
          | error er => rw [h2] at h; exact Except.noConfusion h
          | ok p =>
            obtain ⟨o2, ctx2⟩ := p
            rw [h2] at h
            cases o2 with
            | single e? => exact Except.noConfusion h
            | many es =>
              dsimp only at h
              cases h3 : serRun sch store f (.ownedRels obj rels') ctx2 with
              | error er => rw [h3] at h; exact Except.noConfusion h
              | ok p3 =>
                obtain ⟨o3, ctx3⟩ := p3
                rw [h3] at h
                cases o3 with
                | single e2? => exact Except.noConfusion h
                | many es2 =>
                  cases h
                  have hcH := ih _ _ _ _ h2
                    (fun o ho => (List.mem_filter.mp ho).1) c pk hdot hcpk
                  have hcT := ih _ _ _ _ h3 trivial c pk hdot hcpk
                  have hm2 := (serRun_mono sch store f _ _ _ _ h2).1
                  have hm3 := (serRun_mono sch store f _ _ _ _ h3).1
                  show countFullL c pk (es ++ es2) = _
                  rw [countFullL_append]
                  rw [show countFullL c pk es
                      = countFullL c pk (emitted (.many es)) from rfl]
                  rw [show countFullL c pk es2
                      = countFullL c pk (emitted (.many es2)) from rfl]
                  rw [hcH, hcT]
                  exact count_if_chain _ _ _ (hm2 (c, pk)) (hm3 (c, pk))
    | ownedObjs objs =>
      cases objs with
      | nil =>
        rw [serRun_ownedObjs_nil] at h
        cases h
        simp [emitted, countFullL]
      | cons o os =>
        rw [serRun_ownedObjs_cons] at h
        cases h2 : serRun sch store f (.model o none) ctx with
        | error er => rw [h2] at h; exact Except.noConfusion h
        | ok p =>
          obtain ⟨o2, ctx1⟩ := p
          rw [h2] at h
          cases o2 with
          | many es => exact Except.noConfusion h
          | single e? =>
            dsimp only at h
            cases h3 : serRun sch store f (.ownedObjs os) ctx1 with
            | error er => rw [h3] at h; exact Except.noConfusion h
            | ok p3 =>
              obtain ⟨o3, ctx2⟩ := p3
              rw [h3] at h
              cases o3 with
              | single e2? => exact Except.noConfusion h
              | many es =>
                cases h
                have hcH := ih _ _ _ _ h2 (hok o (List.mem_cons_self o os))
                  c pk hdot hcpk
                have hcT := ih _ _ _ _ h3
                  (fun o2 ho2 => hok o2 (List.mem_cons_of_mem o ho2)) c pk hdot hcpk
                have hm2 := (serRun_mono sch store f _ _ _ _ h2).1
                have hm3 := (serRun_mono sch store f _ _ _ _ h3).1
                show countFullL c pk (e?.toList ++ es) = _
                rw [countFullL_append]
                rw [show countFullL c pk e?.toList
                    = countFullL c pk (emitted (.single e?)) by cases e? <;> rfl]
                rw [show countFullL c pk es
                    = countFullL c pk (emitted (.many es)) from rfl]
                rw [hcH, hcT]
                exact count_if_chain _ _ _ (hm2 (c, pk)) (hm3 (c, pk))


/-- Granting `serRun` one more unit of fuel preserves any outcome other
than fuel exhaustion. -/
theorem serRun_fuel_mono (sch : Schema) (store : Store) :
    ∀ (f : Nat) (j : SJob) (ctx : SCtx) (r : Except SErr (SOut × SCtx)),
      serRun sch store f j ctx = r → r ≠ .error .fuelOut →
      serRun sch store (f + 1) j ctx = r := by
  intro f
  induction f with
  | zero =>
    intro j ctx r h hne
    rw [serRun_zero] at h
    exact absurd h.symm hne
  | succ f ih =>
    intro j ctx r h hne
    cases j with
    | model obj name =>
      rw [serRun_model_eq] at h ⊢
      by_cases hmem : obj.id ∈ ctx.touched
      · rw [if_pos hmem] at h ⊢
        exact h
      · rw [if_neg hmem] at h ⊢
        dsimp only at h ⊢
        cases h2 : serRun sch store f (.fieldsJ (("id", .vint obj.pk) :: obj.fields))
            { ctx with touched := obj.id :: ctx.touched } with
        | error e =>
          rw [h2] at h
          have he : e ≠ .fuelOut := by
            rintro rfl; rw [← h] at hne; exact hne rfl
          rw [ih _ _ _ h2 (by simpa using he)]
          exact h
        | ok p =>
          rw [h2] at h
          rw [ih _ _ _ h2 (by simp)]
          obtain ⟨o2, ctx2⟩ := p
          cases o2 with
          | single e? => exact h
          | many fieldEls =>
            dsimp only at h ⊢
            cases h3 : serRun sch store f
                (.ownedRels obj (owned_models sch obj.cls)) ctx2 with
            | error e =>
              rw [h3] at h
              have he : e ≠ .fuelOut := by
                rintro rfl; rw [← h] at hne; exact hne rfl
              rw [ih _ _ _ h3 (by simpa using he)]
              exact h
            | ok p3 =>
              rw [h3] at h
              rw [ih _ _ _ h3 (by simp)]
              exact h
    | fieldsJ kvs =>
      cases kvs with
      | nil => rw [serRun_fieldsJ_nil] at h ⊢; exact h
      | cons kv kvs' =>
        obtain ⟨k, v⟩ := kv
        rw [serRun_fieldsJ_cons] at h ⊢
        cases h2 : serRun sch store f (.fieldJ k v) ctx with
        | error e =>
          rw [h2] at h
          have he : e ≠ .fuelOut := by
            rintro rfl; rw [← h] at hne; exact hne rfl
          rw [ih _ _ _ h2 (by simpa using he)]
          exact h
        | ok p =>
          rw [h2] at h
          rw [ih _ _ _ h2 (by simp)]
          obtain ⟨o2, ctx1⟩ := p
          cases o2 with
          | many es => exact h
          | single e? =>
            dsimp only at h ⊢
            cases h3 : serRun sch store f (.fieldsJ kvs') ctx1 with
            | error e =>
              rw [h3] at h
              have he : e ≠ .fuelOut := by
                rintro rfl; rw [← h] at hne; exact hne rfl
              rw [ih _ _ _ h3 (by simpa using he)]
              exact h
            | ok p3 =>
              rw [h3] at h
              rw [ih _ _ _ h3 (by simp)]
              exact h
    | fieldJ k v =>
      cases v with
      | vmodel c p =>
        rw [serRun_fieldJ_vmodel] at h ⊢
        cases hf : store.find? (fun o2 => o2.cls == c && o2.pk == p) with
        | none => rw [hf] at h; exact h
        | some o2 =>
          rw [hf] at h
          exact ih _ _ _ h hne
      | vint n => exact h
      | vstr s => exact h
      | vuni s => exact h
      | vbool b => exact h
      | vdate y m d => exact h
      | vdatetime dt => exact h
      | vnone => exact h
    | ownedRels obj rels =>
      cases rels with
      | nil => rw [serRun_ownedRels_nil] at h ⊢; exact h
      | cons r rels' =>
        obtain ⟨c, fkname⟩ := r
        rw [serRun_ownedRels_cons] at h ⊢
        cases hl : ctx.owned_by.lookup c with
        | some v =>
          rw [hl] at h
          dsimp only at h ⊢
          rw [show objNeOwnedBy obj v = true from rfl] at h ⊢
          simp only [if_true] at h ⊢
          exact ih _ _ _ h hne
        | none =>
          rw [hl] at h
          dsimp only at h ⊢
          cases h2 : serRun sch store f (.ownedObjs (store.filter (fun o2 =>
              o2.cls == c &&
              (match o2.fields.lookup fkname with
               | some (.vmodel _ p) => p == obj.pk
               | _ => false))))
              { ctx with owned_by := (c, some obj.cls) :: ctx.owned_by } with
          | error e =>
            rw [h2] at h
            have he : e ≠ .fuelOut := by
              rintro rfl; rw [← h] at hne; exact hne rfl
            rw [ih _ _ _ h2 (by simpa using he)]
            exact h
          | ok p =>
            rw [h2] at h
            rw [ih _ _ _ h2 (by simp)]
            obtain ⟨o2, ctx2⟩ := p
            cases o2 with
            | single e? => exact h
            | many es =>
              dsimp only at h ⊢
              cases h3 : serRun sch store f (.ownedRels obj rels') ctx2 with
              | error e =>
                rw [h3] at h
                have he : e ≠ .fuelOut := by
                  rintro rfl; rw [← h] at hne; exact hne rfl
                rw [ih _ _ _ h3 (by simpa using he)]
                exact h
              | ok p3 =>
                rw [h3] at h
                rw [ih _ _ _ h3 (by simp)]
                exact h
    | ownedObjs objs =>
      cases objs with
      | nil => rw [serRun_ownedObjs_nil] at h ⊢; exact h
      | cons o os =>
        rw [serRun_ownedObjs_cons] at h ⊢
        cases h2 : serRun sch store f (.model o none) ctx with
        | error e =>
          rw [h2] at h
          have he : e ≠ .fuelOut := by
            rintro rfl; rw [← h] at hne; exact hne rfl
          rw [ih _ _ _ h2 (by simpa using he)]
          exact h
        | ok p =>
          rw [h2] at h
          rw [ih _ _ _ h2 (by simp)]
          obtain ⟨o2, ctx1⟩ := p
          cases o2 with
          | many es => exact h
          | single e? =>
            dsimp only at h ⊢
            cases h3 : serRun sch store f (.ownedObjs os) ctx1 with
            | error e =>
              rw [h3] at h
              have he : e ≠ .fuelOut := by
                rintro rfl; rw [← h] at hne; exact hne rfl
              rw [ih _ _ _ h3 (by simpa using he)]
              exact h
            | ok p3 =>
              rw [h3] at h
              rw [ih _ _ _ h3 (by simp)]
              exact h

/-- Fuel weakening for `serRun`, `≤` form. -/
theorem serRun_le_mono (sch : Schema) (store : Store) {f g : Nat} (hfg : f ≤ g)
    {j : SJob} {ctx : SCtx} {r : Except SErr (SOut × SCtx)}
    (h : serRun sch store f j ctx = r) (hne : r ≠ .error .fuelOut) :
    serRun sch store g j ctx = r := by
  induction g with
  | zero =>
    have : f = 0 := Nat.le_zero.mp hfg
    subst this; exact h
  | succ g ihg =>
    rcases Nat.lt_or_ge f (g + 1) with hlt | hge
    · exact serRun_fuel_mono sch store g _ _ _ (ihg (Nat.lt_succ_iff.mp hlt)) hne
    · have : f = g + 1 := Nat.le_antisymm hfg hge
      subst this; exact h

/-- The number of store instances whose identity is not yet touched:
the measure that shrinks every time `_model_to_xml` recurses, because
the instance is added to the touched set before recursing. -/
def untCount (l : Store) (tch : List (ClassName × Int)) : Nat :=
  match l with
  | [] => 0
  | o :: l' => (if o.id ∈ tch then 0 else 1) + untCount l' tch

theorem untCount_mono (tch tch' : List (ClassName × Int))
    (hsub : ∀ x, x ∈ tch → x ∈ tch') :
    ∀ l : Store, untCount l tch' ≤ untCount l tch := by
  intro l
  induction l with
  | nil => exact Nat.le_refl 0
  | cons o l' ihl =>
    simp only [untCount]
    by_cases hmem : o.id ∈ tch
    · have : o.id ∈ tch' := hsub _ hmem
      simp only [hmem, this, if_pos]
      omega
    · by_cases hmem' : o.id ∈ tch'
      · simp only [hmem, hmem', if_pos, if_neg, not_false_iff]
        omega
      · simp only [hmem, hmem', if_neg, not_false_iff]
        omega

theorem untCount_lt_of_touch (obj : Obj) (tch : List (ClassName × Int))
    (hnew : obj.id ∉ tch) :
    ∀ l : Store, obj ∈ l → untCount l (obj.id :: tch) < untCount l tch := by
  intro l
  induction l with
  | nil => intro h; cases h
  | cons a l' ihl =>
    intro hmem
    simp only [untCount]
    have hle : untCount l' (obj.id :: tch) ≤ untCount l' tch :=
      untCount_mono tch (obj.id :: tch) (fun x hx => List.mem_cons_of_mem _ hx) l'
    rcases List.mem_cons.mp hmem with rfl | hmem'
    · rw [if_neg hnew, if_pos (List.mem_cons_self _ _)]
      omega
    · have hhead : (if a.id ∈ obj.id :: tch then 0 else 1)
          ≤ (if a.id ∈ tch then 0 else 1) := by
        by_cases ha : a.id ∈ tch
        · rw [if_pos ha, if_pos (List.mem_cons_of_mem _ ha)]
        · by_cases ha' : a.id ∈ obj.id :: tch
          · rw [if_pos ha', if_neg ha]
            omega
          · rw [if_neg ha', if_neg ha]
      have := ihl hmem'
      omega

/-- For every serializer job there is enough fuel: the instance is
added to the touched set before recursing, so nested `_model_to_xml`
calls strictly shrink the untouched count, and the traversal of a
cyclic reference graph terminates. -/
theorem serRun_adequate (sch : Schema) (store : Store) :
    ∀ (n : Nat) (j : SJob) (ctx : SCtx), SJobOK store j →
      untCount store ctx.touched ≤ n →
      ∃ f, serRun sch store f j ctx ≠ .error .fuelOut := by
  intro n
  induction n using Nat.strong_induction_on with
  | _ n ihn =>
    -- `.model` first: it is the only job that consumes untouched count
    have hModel : ∀ (obj : Obj) (name : Option String) (ctx : SCtx),
        obj ∈ store → untCount store ctx.touched ≤ n →
        ∃ f, serRun sch store f (.model obj name) ctx ≠ .error .fuelOut := by
      intro obj name ctx hobj hle
      by_cases hmem : obj.id ∈ ctx.touched
      · refine ⟨1, ?_⟩
        rw [show (1 : Nat) = 0 + 1 from rfl, serRun_model_eq, if_pos hmem]
        cases name <;> simp
      · have hlt : untCount store (obj.id :: ctx.touched) < n :=
          Nat.lt_of_lt_of_le (untCount_lt_of_touch obj ctx.touched hmem store hobj) hle
        obtain ⟨f1, hf1⟩ := ihn _ hlt (.fieldsJ (("id", .vint obj.pk) :: obj.fields))
          { ctx with touched := obj.id :: ctx.touched } trivial (Nat.le_refl _)
        cases h1 : serRun sch store f1 (.fieldsJ (("id", .vint obj.pk) :: obj.fields))
            { ctx with touched := obj.id :: ctx.touched } with
        | error e =>
          have he : e ≠ .fuelOut := by rintro rfl; exact hf1 h1
          refine ⟨f1 + 1, ?_⟩
          rw [serRun_model_eq, if_neg hmem]
          dsimp only
          rw [h1]
          simpa using he
        | ok p =>
          obtain ⟨o1, ctx2⟩ := p
          cases o1 with
          | single e? =>
            refine ⟨f1 + 1, ?_⟩
            rw [serRun_model_eq, if_neg hmem]
            dsimp only
            rw [h1]
            simp
          | many fieldEls =>
            have hm1 := (serRun_mono sch store f1 _ _ _ _ h1).1
            have hle2 : untCount store ctx2.touched < n :=
              Nat.lt_of_le_of_lt (untCount_mono _ _ hm1 store) hlt
            obtain ⟨f2, hf2⟩ := ihn _ hle2
              (.ownedRels obj (owned_models sch obj.cls)) ctx2 trivial (Nat.le_refl _)
            refine ⟨max f1 f2 + 1, ?_⟩
            rw [serRun_model_eq, if_neg hmem]
            dsimp only
            rw [serRun_le_mono sch store (le_max_left f1 f2) h1 (by simp)]
            dsimp only
            cases h2 : serRun sch store f2
                (.ownedRels obj (owned_models sch obj.cls)) ctx2 with
            | error e =>
              have he : e ≠ .fuelOut := by rintro rfl; exact hf2 h2
              rw [serRun_le_mono sch store (le_max_right f1 f2) h2 (by simpa using he)]
              simpa using he
            | ok p2 =>
              rw [serRun_le_mono sch store (le_max_right f1 f2) h2 (by simp)]
              obtain ⟨o2, ctx3⟩ := p2
              cases o2 with
              | single e? => simp
              | many ownedEls => cases name <;> simp
    have hField : ∀ (k : String) (v : Value) (ctx : SCtx),
        untCount store ctx.touched ≤ n →
        ∃ f, serRun sch store f (.fieldJ k v) ctx ≠ .error .fuelOut := by
      intro k v ctx hle
      cases v with
      | vmodel c p =>
        cases hf : store.find? (fun o2 => o2.cls == c && o2.pk == p) with
        | none =>
          refine ⟨1, ?_⟩
          rw [show (1 : Nat) = 0 + 1 from rfl, serRun_fieldJ_vmodel, hf]
          simp
        | some o2 =>
          obtain ⟨f1, hf1⟩ := hModel o2 (some k) ctx
            (List.mem_of_find?_eq_some hf) hle
          refine ⟨f1 + 1, ?_⟩
          rw [serRun_fieldJ_vmodel, hf]
          exact hf1
      | vint x => exact ⟨1, by rw [show (1 : Nat) = 0 + 1 from rfl, serRun_fieldJ_vint]; simp⟩
      | vstr x => exact ⟨1, by simp [serRun]⟩
      | vuni x => exact ⟨1, by simp [serRun]⟩
      | vbool x => exact ⟨1, by simp [serRun]⟩
      | vdate x y z => exact ⟨1, by simp [serRun]⟩
      | vdatetime x => exact ⟨1, by simp [serRun]⟩
      | vnone => exact ⟨1, by rw [show (1 : Nat) = 0 + 1 from rfl, serRun_fieldJ_vnone]; simp⟩
    have hFields : ∀ (kvs : List (String × Value)) (ctx : SCtx),
        untCount store ctx.touched ≤ n →
        ∃ f, serRun sch store f (.fieldsJ kvs) ctx ≠ .error .fuelOut := by
      intro kvs
      induction kvs with
      | nil =>
        intro ctx hle
        exact ⟨1, by rw [show (1 : Nat) = 0 + 1 from rfl, serRun_fieldsJ_nil]; simp⟩
      | cons kv kvs' ihkvs =>
        intro ctx hle
        obtain ⟨k, v⟩ := kv
        obtain ⟨f1, hf1⟩ := hField k v ctx hle
        cases h1 : serRun sch store f1 (.fieldJ k v) ctx with
        | error e =>
          have he : e ≠ .fuelOut := by rintro rfl; exact hf1 h1
          refine ⟨f1 + 1, ?_⟩
          rw [serRun_fieldsJ_cons, h1]
          simpa using he
        | ok p =>
          obtain ⟨o1, ctx1⟩ := p
          cases o1 with
          | many es =>
            refine ⟨f1 + 1, ?_⟩
            rw [serRun_fieldsJ_cons, h1]
            simp
          | single e? =>
            have hm1 := (serRun_mono sch store f1 _ _ _ _ h1).1
            have hle1 : untCount store ctx1.touched ≤ n :=
              Nat.le_trans (untCount_mono _ _ hm1 store) hle
            obtain ⟨f2, hf2⟩ := ihkvs ctx1 hle1
            refine ⟨max f1 f2 + 1, ?_⟩
            rw [serRun_fieldsJ_cons,
              serRun_le_mono sch store (le_max_left f1 f2) h1 (by simp)]
            dsimp only
            cases h2 : serRun sch store f2 (.fieldsJ kvs') ctx1 with
            | error e =>
              have he : e ≠ .fuelOut := by rintro rfl; exact hf2 h2
              rw [serRun_le_mono sch store (le_max_right f1 f2) h2 (by simpa using he)]
              simpa using he
            | ok p2 =>
              rw [serRun_le_mono sch store (le_max_right f1 f2) h2 (by simp)]
              obtain ⟨o2, ctx2⟩ := p2
              cases o2 <;> simp
    have hOwnedObjs : ∀ (objs : List Obj) (ctx : SCtx),
        (∀ o, o ∈ objs → o ∈ store) → untCount store ctx.touched ≤ n →
        ∃ f, serRun sch store f (.ownedObjs objs) ctx ≠ .error .fuelOut := by
      intro objs
      induction objs with
      | nil =>
        intro ctx _ hle
        exact ⟨1, by rw [show (1 : Nat) = 0 + 1 from rfl, serRun_ownedObjs_nil]; simp⟩
      | cons o os ihos =>
        intro ctx hsub hle
        obtain ⟨f1, hf1⟩ := hModel o none ctx (hsub o (List.mem_cons_self o os)) hle
        cases h1 : serRun sch store f1 (.model o none) ctx with
        | error e =>
          have he : e ≠ .fuelOut := by rintro rfl; exact hf1 h1
          refine ⟨f1 + 1, ?_⟩
          rw [serRun_ownedObjs_cons, h1]
          simpa using he
        | ok p =>
          obtain ⟨o1, ctx1⟩ := p
          cases o1 with
          | many es =>
            refine ⟨f1 + 1, ?_⟩
            rw [serRun_ownedObjs_cons, h1]
            simp
          | single e? =>
            have hm1 := (serRun_mono sch store f1 _ _ _ _ h1).1
            have hle1 : untCount store ctx1.touched ≤ n :=
              Nat.le_trans (untCount_mono _ _ hm1 store) hle
            obtain ⟨f2, hf2⟩ := ihos ctx1
              (fun o2 ho2 => hsub o2 (List.mem_cons_of_mem o ho2)) hle1
            refine ⟨max f1 f2 + 1, ?_⟩
            rw [serRun_ownedObjs_cons,
              serRun_le_mono sch store (le_max_left f1 f2) h1 (by simp)]
            dsimp only
            cases h2 : serRun sch store f2 (.ownedObjs os) ctx1 with
            | error e =>
              have he : e ≠ .fuelOut := by rintro rfl; exact hf2 h2
              rw [serRun_le_mono sch store (le_max_right f1 f2) h2 (by simpa using he)]
              simpa using he
            | ok p2 =>
              rw [serRun_le_mono sch store (le_max_right f1 f2) h2 (by simp)]
              obtain ⟨o2, ctx2⟩ := p2
              cases o2 <;> simp
    have hOwnedRels : ∀ (rels : List (ClassName × String)) (obj : Obj) (ctx : SCtx),
        untCount store ctx.touched ≤ n →
        ∃ f, serRun sch store f (.ownedRels obj rels) ctx ≠ .error .fuelOut := by
      intro rels
      induction rels with
      | nil =>
        intro obj ctx hle
        exact ⟨1, by rw [show (1 : Nat) = 0 + 1 from rfl, serRun_ownedRels_nil]; simp⟩
      | cons r rels' ihr =>
        intro obj ctx hle
        obtain ⟨c, fkname⟩ := r
        cases hl : ctx.owned_by.lookup c with
        | some v =>
          obtain ⟨f1, hf1⟩ := ihr obj ctx hle
          refine ⟨f1 + 1, ?_⟩
          rw [serRun_ownedRels_cons, hl]
          dsimp only
          rw [show objNeOwnedBy obj v = true from rfl]
          simp only [if_true]
          exact hf1
        | none =>
          have hle1 : untCount store
              ({ ctx with owned_by := (c, some obj.cls) :: ctx.owned_by } : SCtx).touched
              ≤ n := hle
          obtain ⟨f1, hf1⟩ := hOwnedObjs (store.filter (fun o2 =>
              o2.cls == c &&
              (match o2.fields.lookup fkname with
               | some (.vmodel _ p) => p == obj.pk
               | _ => false)))
            { ctx with owned_by := (c, some obj.cls) :: ctx.owned_by }
            (fun o ho => (List.mem_filter.mp ho).1) hle1
          cases h1 : serRun sch store f1 (.ownedObjs (store.filter (fun o2 =>
              o2.cls == c &&
              (match o2.fields.lookup fkname with
               | some (.vmodel _ p) => p == obj.pk
               | _ => false))))
              { ctx with owned_by := (c, some obj.cls) :: ctx.owned_by } with
          | error e =>
            have he : e ≠ .fuelOut := by rintro rfl; exact hf1 h1
            refine ⟨f1 + 1, ?_⟩
            rw [serRun_ownedRels_cons, hl]
            dsimp only
            rw [h1]
            simpa using he
          | ok p =>
            obtain ⟨o1, ctx2⟩ := p
            cases o1 with
            | single e? =>
              refine ⟨f1 + 1, ?_⟩
              rw [serRun_ownedRels_cons, hl]
              dsimp only
              rw [h1]
              simp
            | many es =>
              have hm1 := (serRun_mono sch store f1 _ _ _ _ h1).1
              have hle2 : untCount store ctx2.touched ≤ n :=
                Nat.le_trans (untCount_mono _ _ hm1 store) hle
              obtain ⟨f2, hf2⟩ := ihr obj ctx2 hle2
              refine ⟨max f1 f2 + 1, ?_⟩
              rw [serRun_ownedRels_cons, hl]
              dsimp only
              rw [serRun_le_mono sch store (le_max_left f1 f2) h1 (by simp)]
              dsimp only
              cases h2 : serRun sch store f2 (.ownedRels obj rels') ctx2 with
              | error e =>
                have he : e ≠ .fuelOut := by rintro rfl; exact hf2 h2
                rw [serRun_le_mono sch store (le_max_right f1 f2) h2 (by simpa using he)]
                simpa using he
              | ok p2 =>
                rw [serRun_le_mono sch store (le_max_right f1 f2) h2 (by simp)]
                obtain ⟨o2, ctx3⟩ := p2
                cases o2 <;> simp
    intro j ctx hok hle
    cases j with
    | model obj name => exact hModel obj name ctx hok hle
    | fieldsJ kvs => exact hFields kvs ctx hle
    | fieldJ k v => exact hField k v ctx hle
    | ownedRels obj rels => exact hOwnedRels rels obj ctx hle
    | ownedObjs objs => exact hOwnedObjs objs ctx hok hle

/-- Unfolding a successful `_model_to_xml` to its `serRun` call. -/
theorem _model_to_xml_ok (sch : Schema) (store : Store) (fuel : Nat)
    (obj : Obj) (name : Option String) (ctx : SCtx) (e? : Option Elem)
    (ctx' : SCtx)
    (h : _model_to_xml sch store fuel obj name ctx = .ok (e?, ctx')) :
    serRun sch store fuel (.model obj name) ctx = .ok (.single e?, ctx') := by
  unfold _model_to_xml at h
  cases hs : serRun sch store fuel (.model obj name) ctx with
  | error e => rw [hs] at h; cases h
  | ok p =>
    obtain ⟨o, c⟩ := p
    rw [hs] at h
    cases o with
    | single e2? => cases h; rfl
    | many es => cases h

/-- Fuel weakening for `_model_to_xml`. -/
theorem _model_to_xml_le_mono (sch : Schema) (store : Store) {f g : Nat}
    (hfg : f ≤ g) {obj : Obj} {name : Option String} {ctx : SCtx}
    {r : Except SErr (Option Elem × SCtx)}
    (h : _model_to_xml sch store f obj name ctx = r) (hne : r ≠ .error .fuelOut) :
    _model_to_xml sch store g obj name ctx = r := by
  unfold _model_to_xml at h ⊢
  cases hs : serRun sch store f (.model obj name) ctx with
  | error e =>
    rw [hs] at h
    have he : e ≠ .fuelOut := by rintro rfl; rw [← h] at hne; exact hne rfl
    rw [serRun_le_mono sch store hfg hs (by simpa using he)]
    exact h
  | ok p =>
    rw [hs] at h
    rw [serRun_le_mono sch store hfg hs (by simp)]
    exact h

theorem topObjsLoop_step_nil (sch : Schema) (store : Store) (fuel : Nat)
    (acc : List Elem) (ctx : SCtx) :
    topObjsLoop sch store fuel [] acc ctx = .ok (acc, ctx) := rfl

theorem topObjsLoop_step_cons (sch : Schema) (store : Store) (fuel : Nat)
    (o : Obj) (os : List Obj) (acc : List Elem) (ctx : SCtx) :
    topObjsLoop sch store fuel (o :: os) acc ctx =
      if o.id ∈ ctx.touched then topObjsLoop sch store fuel os acc ctx
      else
        match _model_to_xml sch store fuel o none ctx with
        | .error e => .error e
        | .ok (none, ctx1) => topObjsLoop sch store fuel os acc ctx1
        | .ok (some e, ctx1) => topObjsLoop sch store fuel os (acc ++ [e]) ctx1 := rfl

/-- Touched-set monotonicity of the instance loop. -/
theorem topObjsLoop_mono (sch : Schema) (store : Store) (fuel : Nat) :
    ∀ (objs : List Obj) (acc : List Elem) (ctx : SCtx) (acc' : List Elem)
      (ctx' : SCtx),
      topObjsLoop sch store fuel objs acc ctx = .ok (acc', ctx') →
      ∀ x, x ∈ ctx.touched → x ∈ ctx'.touched := by
  intro objs
  induction objs with
  | nil =>
    intro acc ctx acc' ctx' h
    rw [topObjsLoop_step_nil] at h
    cases h
    exact fun x hx => hx
  | cons o os iho =>
    intro acc ctx acc' ctx' h
    rw [topObjsLoop_step_cons] at h
    by_cases hmem : o.id ∈ ctx.touched
    · rw [if_pos hmem] at h
      exact iho _ _ _ _ h
    · rw [if_neg hmem] at h
      cases hw : _model_to_xml sch store fuel o none ctx with
      | error e => rw [hw] at h; cases h
      | ok p =>
        obtain ⟨e?, ctx1⟩ := p
        rw [hw] at h
        have hs := _model_to_xml_ok sch store fuel o none ctx e? ctx1 hw
        have hm := (serRun_mono sch store fuel _ _ _ _ hs).1
        cases e? with
        | none => exact fun x hx => iho _ _ _ _ h x (hm x hx)
        | some e => exact fun x hx => iho _ _ _ _ h x (hm x hx)

/-- Every instance the loop passes over ends up touched. -/
theorem topObjsLoop_touches (sch : Schema) (store : Store) (fuel : Nat) :
    ∀ (objs : List Obj) (acc : List Elem) (ctx : SCtx) (acc' : List Elem)
      (ctx' : SCtx),
      topObjsLoop sch store fuel objs acc ctx = .ok (acc', ctx') →
      ∀ o, o ∈ objs → o.id ∈ ctx'.touched := by
  intro objs
  induction objs with
  | nil => intro acc ctx acc' ctx' h o ho; cases ho
  | cons o1 os iho =>
    intro acc ctx acc' ctx' h o ho
    rw [topObjsLoop_step_cons] at h
    by_cases hmem : o1.id ∈ ctx.touched
    · rw [if_pos hmem] at h
      rcases List.mem_cons.mp ho with rfl | ho'
      · exact topObjsLoop_mono sch store fuel _ _ _ _ _ h _ hmem
      · exact iho _ _ _ _ h o ho'
    · rw [if_neg hmem] at h
      cases hw : _model_to_xml sch store fuel o1 none ctx with
      | error e => rw [hw] at h; cases h
      | ok p =>
        obtain ⟨e?, ctx1⟩ := p
        rw [hw] at h
        have hs := _model_to_xml_ok sch store fuel o1 none ctx e? ctx1 hw
        have ht1 : o1.id ∈ ctx1.touched :=
          serRun_model_touched sch store fuel o1 none ctx _ ctx1 hs
        rcases List.mem_cons.mp ho with rfl | ho'
        · cases e? with
          | none => exact topObjsLoop_mono sch store fuel _ _ _ _ _ h _ ht1
          | some e => exact topObjsLoop_mono sch store fuel _ _ _ _ _ h _ ht1
        · cases e? with
          | none => exact iho _ _ _ _ h o ho'
          | some e => exact iho _ _ _ _ h o ho'

/-- Counting through the instance loop. -/
theorem topObjsLoop_count (sch : Schema) (store : Store) (fuel : Nat)
    (hd : distinctPks store) :
    ∀ (objs : List Obj) (acc : List Elem) (ctx : SCtx) (acc' : List Elem)
      (ctx' : SCtx),
      topObjsLoop sch store fuel objs acc ctx = .ok (acc', ctx') →
      (∀ o, o ∈ objs → o ∈ store) →
      ∀ (c : ClassName) (pk : Int), strContains c '.' = true →
        (c, pk) ∈ storeIds store →
        countFullL c pk acc' = countFullL c pk acc
          + (if (c, pk) ∈ ctx'.touched ∧ (c, pk) ∉ ctx.touched then 1 else 0) := by
  intro objs
  induction objs with
  | nil =>
    intro acc ctx acc' ctx' h hsub c pk hdot hcpk
    rw [topObjsLoop_step_nil] at h
    cases h
    rw [if_neg (fun hcon => hcon.2 hcon.1), Nat.add_zero]
  | cons o os iho =>
    intro acc ctx acc' ctx' h hsub c pk hdot hcpk
    rw [topObjsLoop_step_cons] at h
    by_cases hmem : o.id ∈ ctx.touched
    · rw [if_pos hmem] at h
      exact iho _ _ _ _ h (fun o2 ho2 => hsub o2 (List.mem_cons_of_mem o ho2))
        c pk hdot hcpk
    · rw [if_neg hmem] at h
      cases hw : _model_to_xml sch store fuel o none ctx with
      | error e => rw [hw] at h; cases h
      | ok p =>
        obtain ⟨e?, ctx1⟩ := p
        rw [hw] at h
        have hs := _model_to_xml_ok sch store fuel o none ctx e? ctx1 hw
        have hcnt := serRun_count sch store hd fuel _ _ _ _ hs
          (hsub o (List.mem_cons_self o os)) c pk hdot hcpk
        have hm1 := (serRun_mono sch store fuel _ _ _ _ hs).1
        cases e? with
        | none =>
          have hrec := iho _ _ _ _ h
            (fun o2 ho2 => hsub o2 (List.mem_cons_of_mem o ho2)) c pk hdot hcpk
          have hm2 := topObjsLoop_mono sch store fuel _ _ _ _ _ h
          rw [hrec]
          have hz : (if (c, pk) ∈ ctx1.touched ∧ (c, pk) ∉ ctx.touched then 1 else 0)
              = 0 := by
            simpa [emitted, countFullL] using hcnt.symm
          have hchain := count_if_chain ((c, pk) ∈ ctx.touched)
            ((c, pk) ∈ ctx1.touched) ((c, pk) ∈ ctx'.touched)
            (hm1 (c, pk)) (hm2 (c, pk))
          rw [hz, Nat.zero_add] at hchain
          rw [hchain]
        | some e =>
          have hrec := iho _ _ _ _ h
            (fun o2 ho2 => hsub o2 (List.mem_cons_of_mem o ho2)) c pk hdot hcpk
          have hm2 := topObjsLoop_mono sch store fuel _ _ _ _ _ h
          rw [hrec, countFullL_append]
          have he : countFull c pk e + 0
              = (if (c, pk) ∈ ctx1.touched ∧ (c, pk) ∉ ctx.touched then 1 else 0) := by
            simpa [emitted, countFullL] using hcnt
          have hchain := count_if_chain ((c, pk) ∈ ctx.touched)
            ((c, pk) ∈ ctx1.touched) ((c, pk) ∈ ctx'.touched)
            (hm1 (c, pk)) (hm2 (c, pk))
          rw [show countFullL c pk [e] = countFull c pk e + 0 from rfl, he]
          rw [Nat.add_assoc, hchain]

/-- Fuel weakening for the instance loop. -/
theorem topObjsLoop_le_mono (sch : Schema) (store : Store) {f g : Nat}
    (hfg : f ≤ g) :
    ∀ (objs : List Obj) (acc : List Elem) (ctx : SCtx)
      (r : Except SErr (List Elem × SCtx)),
      topObjsLoop sch store f objs acc ctx = r → r ≠ .error .fuelOut →
      topObjsLoop sch store g objs acc ctx = r := by
  intro objs
  induction objs with
  | nil =>
    intro acc ctx r h hne
    rw [topObjsLoop_step_nil] at h ⊢
    exact h
  | cons o os iho =>
    intro acc ctx r h hne
    rw [topObjsLoop_step_cons] at h ⊢
    by_cases hmem : o.id ∈ ctx.touched
    · rw [if_pos hmem] at h ⊢
      exact iho _ _ _ h hne
    · rw [if_neg hmem] at h ⊢
      cases hw : _model_to_xml sch store f o none ctx with
      | error e =>
        rw [hw] at h
        have he : e ≠ .fuelOut := by rintro rfl; rw [← h] at hne; exact hne rfl
        rw [_model_to_xml_le_mono sch store hfg hw (by simpa using he)]
        exact h
      | ok p =>
        rw [hw] at h
        rw [_model_to_xml_le_mono sch store hfg hw (by simp)]
        obtain ⟨e?, ctx1⟩ := p
        cases e? with
        | none => exact iho _ _ _ h hne
        | some e => exact iho _ _ _ h hne

/-- Adequate fuel exists for the instance loop. -/
theorem topObjsLoop_adequate (sch : Schema) (store : Store) :
    ∀ (objs : List Obj) (acc : List Elem) (ctx : SCtx),
      (∀ o, o ∈ objs → o ∈ store) →
      ∃ f, topObjsLoop sch store f objs acc ctx ≠ .error .fuelOut := by
  intro objs
  induction objs with
  | nil =>
    intro acc ctx _
    exact ⟨0, by rw [topObjsLoop_step_nil]; simp⟩
  | cons o os iho =>
    intro acc ctx hsub
    by_cases hmem : o.id ∈ ctx.touched
    · obtain ⟨f, hf⟩ := iho acc ctx (fun o2 ho2 => hsub o2 (List.mem_cons_of_mem o ho2))
      refine ⟨f, ?_⟩
      rw [topObjsLoop_step_cons, if_pos hmem]
      exact hf
    · obtain ⟨f1, hf1⟩ := serRun_adequate sch store (untCount store ctx.touched)
        (.model o none) ctx (hsub o (List.mem_cons_self o os)) (Nat.le_refl _)
      have hw1 : _model_to_xml sch store f1 o none ctx ≠ .error .fuelOut := by
        unfold _model_to_xml
        cases hs : serRun sch store f1 (.model o none) ctx with
        | error e =>
          have : e ≠ .fuelOut := by rintro rfl; exact hf1 hs
          simpa using this
        | ok p =>
          obtain ⟨o2, c2⟩ := p
          cases o2 <;> simp
      cases hw : _model_to_xml sch store f1 o none ctx with
      | error e =>
        have he : e ≠ .fuelOut := by rintro rfl; exact hw1 hw
        refine ⟨f1, ?_⟩
        rw [topObjsLoop_step_cons, if_neg hmem, hw]
        simpa using he
      | ok p =>
        obtain ⟨e?, ctx1⟩ := p
        have hrest : ∀ acc2, ∃ f, topObjsLoop sch store f os acc2 ctx1 ≠ .error .fuelOut :=
          fun acc2 => iho acc2 ctx1 (fun o2 ho2 => hsub o2 (List.mem_cons_of_mem o ho2))
        cases e? with
        | none =>
          obtain ⟨f2, hf2⟩ := hrest acc
          refine ⟨max f1 f2, ?_⟩
          rw [topObjsLoop_step_cons, if_neg hmem,
            _model_to_xml_le_mono sch store (le_max_left f1 f2) hw (by simp)]
          dsimp only
          cases h2 : topObjsLoop sch store f2 os acc ctx1 with
          | error e =>
            have he : e ≠ .fuelOut := by rintro rfl; exact hf2 h2
            rw [topObjsLoop_le_mono sch store (le_max_right f1 f2) _ _ _ _ h2
              (by simpa using he)]
            simpa using he
          | ok p2 =>
            rw [topObjsLoop_le_mono sch store (le_max_right f1 f2) _ _ _ _ h2 (by simp)]
            simp
        | some e =>
          obtain ⟨f2, hf2⟩ := hrest (acc ++ [e])
          refine ⟨max f1 f2, ?_⟩
          rw [topObjsLoop_step_cons, if_neg hmem,
            _model_to_xml_le_mono sch store (le_max_left f1 f2) hw (by simp)]
          dsimp only
          cases h2 : topObjsLoop sch store f2 os (acc ++ [e]) ctx1 with
          | error e2 =>
            have he : e2 ≠ .fuelOut := by rintro rfl; exact hf2 h2
            rw [topObjsLoop_le_mono sch store (le_max_right f1 f2) _ _ _ _ h2
              (by simpa using he)]
            simpa using he
          | ok p2 =>
            rw [topObjsLoop_le_mono sch store (le_max_right f1 f2) _ _ _ _ h2 (by simp)]
            simp

theorem classLoop_step_nil (sch : Schema) (store : Store) (fuel : Nat)
    (acc : List Elem) (ctx : SCtx) :
    classLoop sch store fuel [] acc ctx = .ok (acc, ctx) := rfl

theorem classLoop_step_cons (sch : Schema) (store : Store) (fuel : Nat)
    (c : ClassName) (cs : List ClassName) (acc : List Elem) (ctx : SCtx) :
    classLoop sch store fuel (c :: cs) acc ctx =
      match topObjsLoop sch store fuel (store.filter (fun o => o.cls == c)) acc ctx with
      | .error e => .error e
      | .ok (acc1, ctx1) => classLoop sch store fuel cs acc1 ctx1 := rfl

/-- Touched-set monotonicity of the class loop. -/
theorem classLoop_mono (sch : Schema) (store : Store) (fuel : Nat) :
    ∀ (cs : List ClassName) (acc : List Elem) (ctx : SCtx) (acc' : List Elem)
      (ctx' : SCtx),
      classLoop sch store fuel cs acc ctx = .ok (acc', ctx') →
      ∀ x, x ∈ ctx.touched → x ∈ ctx'.touched := by
  intro cs
  induction cs with
  | nil =>
    intro acc ctx acc' ctx' h
    rw [classLoop_step_nil] at h
    cases h
    exact fun x hx => hx
  | cons c cs ihc =>
    intro acc ctx acc' ctx' h
    rw [classLoop_step_cons] at h
    cases ht : topObjsLoop sch store fuel (store.filter (fun o => o.cls == c)) acc ctx with
    | error e => rw [ht] at h; cases h
    | ok p =>
      obtain ⟨acc1, ctx1⟩ := p
      rw [ht] at h
      exact fun x hx =>
        ihc _ _ _ _ h x (topObjsLoop_mono sch store fuel _ _ _ _ _ ht x hx)

/-- Every store instance of a processed class ends up touched. -/
theorem classLoop_touches (sch : Schema) (store : Store) (fuel : Nat) :
    ∀ (cs : List ClassName) (acc : List Elem) (ctx : SCtx) (acc' : List Elem)
      (ctx' : SCtx),
      classLoop sch store fuel cs acc ctx = .ok (acc', ctx') →
      ∀ o, o ∈ store → o.cls ∈ cs → o.id ∈ ctx'.touched := by
  intro cs
  induction cs with
  | nil => intro acc ctx acc' ctx' h o ho hc; cases hc
  | cons c cs ihc =>
    intro acc ctx acc' ctx' h o ho hc
    rw [classLoop_step_cons] at h
    cases ht : topObjsLoop sch store fuel (store.filter (fun o => o.cls == c)) acc ctx with
    | error e => rw [ht] at h; cases h
    | ok p =>
      obtain ⟨acc1, ctx1⟩ := p
      rw [ht] at h
      rcases List.mem_cons.mp hc with hco | hc'
      · have hfo : o ∈ store.filter (fun o => o.cls == c) :=
          List.mem_filter.mpr ⟨ho, by simp [hco]⟩
        exact classLoop_mono sch store fuel _ _ _ _ _ h _
          (topObjsLoop_touches sch store fuel _ _ _ _ _ ht o hfo)
      · exact ihc _ _ _ _ h o ho hc'

/-- Counting through the class loop. -/
theorem classLoop_count (sch : Schema) (store : Store) (fuel : Nat)
    (hd : distinctPks store) :
    ∀ (cs : List ClassName) (acc : List Elem) (ctx : SCtx) (acc' : List Elem)
      (ctx' : SCtx),
      classLoop sch store fuel cs acc ctx = .ok (acc', ctx') →
      ∀ (c : ClassName) (pk : Int), strContains c '.' = true →
        (c, pk) ∈ storeIds store →
        countFullL c pk acc' = countFullL c pk acc
          + (if (c, pk) ∈ ctx'.touched ∧ (c, pk) ∉ ctx.touched then 1 else 0) := by
  intro cs
  induction cs with
  | nil =>
    intro acc ctx acc' ctx' h c pk hdot hcpk
    rw [classLoop_step_nil] at h
    cases h
    rw [if_neg (fun hcon => hcon.2 hcon.1), Nat.add_zero]
  | cons c1 cs ihc =>
    intro acc ctx acc' ctx' h c pk hdot hcpk
    rw [classLoop_step_cons] at h
    cases ht : topObjsLoop sch store fuel (store.filter (fun o => o.cls == c1)) acc ctx with
    | error e => rw [ht] at h; cases h
    | ok p =>
      obtain ⟨acc1, ctx1⟩ := p
      rw [ht] at h
      have h1 := topObjsLoop_count sch store fuel hd _ _ _ _ _ ht
        (fun o2 ho2 => (List.mem_filter.mp ho2).1) c pk hdot hcpk
      have h2 := ihc _ _ _ _ h c pk hdot hcpk
      have hm1 := topObjsLoop_mono sch store fuel _ _ _ _ _ ht
      have hm2 := classLoop_mono sch store fuel _ _ _ _ _ h
      rw [h2, h1, Nat.add_assoc,
        count_if_chain ((c, pk) ∈ ctx.touched) ((c, pk) ∈ ctx1.touched)
          ((c, pk) ∈ ctx'.touched) (hm1 (c, pk)) (hm2 (c, pk))]

/-- Fuel weakening for the class loop. -/
theorem classLoop_le_mono (sch : Schema) (store : Store) {f g : Nat}
    (hfg : f ≤ g) :
    ∀ (cs : List ClassName) (acc : List Elem) (ctx : SCtx)
      (r : Except SErr (List Elem × SCtx)),
      classLoop sch store f cs acc ctx = r → r ≠ .error .fuelOut →
      classLoop sch store g cs acc ctx = r := by
  intro cs
  induction cs with
  | nil =>
    intro acc ctx r h hne
    rw [classLoop_step_nil] at h ⊢
    exact h
  | cons c cs ihc =>
    intro acc ctx r h hne
    rw [classLoop_step_cons] at h ⊢
    cases ht : topObjsLoop sch store f (store.filter (fun o => o.cls == c)) acc ctx with
    | error e =>
      rw [ht] at h
      have he : e ≠ .fuelOut := by rintro rfl; rw [← h] at hne; exact hne rfl
      rw [topObjsLoop_le_mono sch store hfg _ _ _ _ ht (by simpa using he)]
      exact h
    | ok p =>
      rw [ht] at h
      rw [topObjsLoop_le_mono sch store hfg _ _ _ _ ht (by simp)]
      obtain ⟨acc1, ctx1⟩ := p
      exact ihc _ _ _ h hne

/-- Adequate fuel exists for the class loop. -/
theorem classLoop_adequate (sch : Schema) (store : Store) :
    ∀ (cs : List ClassName) (acc : List Elem) (ctx : SCtx),
      ∃ f, classLoop sch store f cs acc ctx ≠ .error .fuelOut := by
  intro cs
  induction cs with
  | nil =>
    intro acc ctx
    exact ⟨0, by rw [classLoop_step_nil]; simp⟩
  | cons c cs ihc =>
    intro acc ctx
    obtain ⟨f1, hf1⟩ := topObjsLoop_adequate sch store
      (store.filter (fun o => o.cls == c)) acc ctx
      (fun o2 ho2 => (List.mem_filter.mp ho2).1)
    cases ht : topObjsLoop sch store f1 (store.filter (fun o => o.cls == c)) acc ctx with
    | error e =>
      have he : e ≠ .fuelOut := by rintro rfl; exact hf1 ht
      refine ⟨f1, ?_⟩
      rw [classLoop_step_cons, ht]
      simpa using he
    | ok p =>
      obtain ⟨acc1, ctx1⟩ := p
      obtain ⟨f2, hf2⟩ := ihc acc1 ctx1
      refine ⟨max f1 f2, ?_⟩
      rw [classLoop_step_cons,
        topObjsLoop_le_mono sch store (le_max_left f1 f2) _ _ _ _ ht (by simp)]
      dsimp only
      cases h2 : classLoop sch store f2 cs acc1 ctx1 with
      | error e =>
        have he : e ≠ .fuelOut := by rintro rfl; exact hf2 h2
        rw [classLoop_le_mono sch store (le_max_right f1 f2) _ _ _ _ h2
          (by simpa using he)]
        simpa using he
      | ok p2 =>
        rw [classLoop_le_mono sch store (le_max_right f1 f2) _ _ _ _ h2 (by simp)]
        simp

/-- The `ModelData` document root is not a full instance element of any
dotted class. -/
theorem countFull_modeldata (c : ClassName) (pk : Int)
    (hdot : strContains c '.' = true) (cs : List Elem) :
    countFull c pk (.mk "ModelData" none none none cs) = countFullL c pk cs := by
  have hne : ("ModelData" : String) ≠ c := ne_of_dotless hdot (by decide)
  simp [countFull, isFullFor, Elem.typ, Elem.tag, hne]

/-- With `include_rest_of_app`, every schema class is on the working
list. -/
theorem mem_workingClasses (sch : Schema) (roots : List ClassName)
    (c : ClassName) (hc : c ∈ classNames sch) : c ∈ workingClasses sch roots := by
  unfold workingClasses
  by_cases hr : c ∈ roots
  · exact List.mem_append_left _ hr
  · exact List.mem_append_right _ (List.mem_filter.mpr ⟨hc, by simp [hr]⟩)

/-- Exactly-once emission through `models_to_xml`: every store instance
of a (dotted) schema class is serialized in full exactly once in a
successful document. -/
theorem models_to_xml_exactly_once (sch : Schema) (store : Store)
    (roots : List ClassName) (fuel : Nat) (doc : Elem)
    (hd : distinctPks store)
    (h : models_to_xml sch store roots fuel = .ok doc) :
    ∀ o, o ∈ store → o.cls ∈ classNames sch → strContains o.cls '.' = true →
      countFull o.cls o.pk doc = 1 := by
  intro o ho hcls hdot
  unfold models_to_xml at h
  cases hcl : classLoop sch store fuel (workingClasses sch roots) [] (ctx0 roots) with
  | error e => rw [hcl] at h; cases h
  | ok p =>
    obtain ⟨children, ctx⟩ := p
    rw [hcl] at h
    dsimp only at h
    cases hpp : ctx.postprocess.isEmpty with
    | false =>
      rw [hpp, if_neg (by simp)] at h
      cases h
    | true =>
      rw [hpp, if_pos rfl] at h
      cases h
      rw [countFull_modeldata o.cls o.pk hdot children]
      have hcnt := classLoop_count sch store fuel hd _ _ _ _ _ hcl o.cls o.pk hdot
        (List.mem_map.mpr ⟨o, ho, rfl⟩)
      have htch : (o.cls, o.pk) ∈ ctx.touched :=
        classLoop_touches sch store fuel _ _ _ _ _ hcl o ho
          (mem_workingClasses sch roots o.cls hcls)
      rw [hcnt, show countFullL o.cls o.pk [] = 0 from rfl, Nat.zero_add,
        if_pos ⟨htch, List.not_mem_nil (o.cls, o.pk)⟩]

/-- Adequate fuel exists for `models_to_xml` on any schema, store and
root list: the touched set makes the traversal of even a cyclic
reference graph terminate. -/
theorem models_to_xml_adequate (sch : Schema) (store : Store)
    (roots : List ClassName) :
    ∃ f, models_to_xml sch store roots f ≠ .error .fuelOut := by
  obtain ⟨f, hf⟩ := classLoop_adequate sch store (workingClasses sch roots) [] (ctx0 roots)
  refine ⟨f, ?_⟩
  unfold models_to_xml
  cases hcl : classLoop sch store f (workingClasses sch roots) [] (ctx0 roots) with
  | error e =>
    have he : e ≠ .fuelOut := by rintro rfl; exact hf hcl
    simpa using he
  | ok p =>
    obtain ⟨children, ctx⟩ := p
    dsimp only
    by_cases hpp : ctx.postprocess.isEmpty = true
    · rw [if_pos hpp]; simp
    · rw [if_neg hpp]; simp

/-- C7: at-most-once emission.
(1) Revisits of an already-touched instance emit no full element:
a bare traversal hit returns `None` and leaves the context unchanged,
and an occurrence as a field value emits only the reference marker
(`<name type='reference' to_type=cls>pk</name>`);
(2) in a successful `models_to_xml` document, every store instance of a
(dotted) schema class appears as a full element exactly once — counted
over the whole tree, nested or top-level (under the standing hypothesis
that distinct primary keys of a class print distinctly);
(3) the traversal terminates on every schema/store/root list — cyclic
reference graphs included — because an instance is added to the touched
set before its fields are recursed into. -/
theorem at_most_once_emission :
    (∀ (sch : Schema) (store : Store) (f : Nat) (obj : Obj) (ctx : SCtx),
      obj.id ∈ ctx.touched →
      _model_to_xml sch store (f + 1) obj none ctx = .ok (none, ctx)
      ∧ ∀ k, _model_to_xml sch store (f + 1) obj (some k) ctx
          = .ok (some (refMarker k obj), ctx))
    ∧ (∀ (sch : Schema) (store : Store) (roots : List ClassName) (fuel : Nat)
        (doc : Elem), distinctPks store →
        models_to_xml sch store roots fuel = .ok doc →
        ∀ o, o ∈ store → o.cls ∈ classNames sch → strContains o.cls '.' = true →
          countFull o.cls o.pk doc = 1)
    ∧ (∀ (sch : Schema) (store : Store) (roots : List ClassName),
        ∃ f, models_to_xml sch store roots f ≠ .error .fuelOut) := by
  refine ⟨?_, ?_, ?_⟩
  · intro sch store f obj ctx hmem
    constructor
    · unfold _model_to_xml
      rw [serRun_model_eq, if_pos hmem]
    · intro k
      unfold _model_to_xml
      rw [serRun_model_eq, if_pos hmem]
  · intro sch store roots fuel doc hd h
    exact models_to_xml_exactly_once sch store roots fuel doc hd h
  · exact models_to_xml_adequate

/-- The serialized `storeC3` document (the payload of the C3
evaluation), named for concrete counting. -/
def doc7 : Elem :=
  .mk "ModelData" none none none
    [.mk "m.A" none none none [.mk "id" (some "int") none (some "1") []],
     .mk "m.A" none none none [.mk "id" (some "int") none (some "2") []],
     .mk "m.B" none none none
       [.mk "id" (some "int") none (some "1") [],
        .mk "a" (some "reference") (some "m.A") (some "2") []]]

/-- C7 at concrete inputs: the lone `m.B` instance of `storeC3` is a
full element exactly once in its document, and a touched `m.A` instance
revisited as a field value yields just the reference marker. -/
theorem at_most_once_emission_witness :
    countFull "m.B" 1 doc7 = 1
    ∧ _model_to_xml schAB storeC3 5 ⟨"m.A", 1, []⟩ (some "f") ⟨[("m.A", 1)], [], []⟩
        = .ok (some (refMarker "f" ⟨"m.A", 1, []⟩), ⟨[("m.A", 1)], [], []⟩) := by
  constructor
  · exact at_most_once_emission.2.1 schAB storeC3 ["m.A"] 30 doc7 (by decide) rfl
      ⟨"m.B", 1, [("a", .vmodel "m.A" 2)]⟩
      (List.mem_cons_of_mem _ (List.mem_cons_of_mem _ (List.mem_cons_self _ _)))
      (by decide) (by decide)
  · exact (at_most_once_emission.1 schAB storeC3 4 ⟨"m.A", 1, []⟩
      ⟨[("m.A", 1)], [], []⟩ (by decide)).2 "f"

end Xmldump
